import Mathlib

/-!
Verification of the seastar virtio-net driver core (`src/net/virtio.cc`).

The development shallowly embeds the `vring` engine and the device-level
producers/completions:

* machine integers become `Nat`/`Int` with explicit truncation where the C++
  performs one (`int` → `uint16_t` stores truncate mod 2^16, `size_t`
  subtraction wraps mod 2^64);
* the shared ring memory (descriptor table, avail ring, used ring) and the
  driver private state (`_free_desc`, `_avail._head`, `_used._tail`, the
  completion-slot array, the semaphore counter) become fields of an explicit
  state record threaded through the operations;
* array accesses that the C++ performs without a bound check are modelled
  with an explicit guard returning `none` (the execution that a failed
  `assert` or an out-of-bounds access would abort is the `none` branch);
* the completion slots (`promise<size_t>[]`) are modelled as records holding
  a `pending` flag (a submitted, not yet fulfilled promise occupies the
  slot) and the list of values the slot's promise was fulfilled with, so
  that single-shot fulfilment is expressible.
-/

namespace VirtioNet

/-- One entry of the descriptor table (`vring::desc`): `_paddr`, `_len`,
the three flag bits and `_next`.  `_next` is a `uint16_t` in the source;
every value the driver stores into it is `< 2^16` (tracked by `WfState`). -/
structure Desc where
  paddr : Nat
  dlen : Nat
  hasNext : Bool
  writeable : Bool
  indirect : Bool
  next : Nat
deriving Repr, DecidableEq, Inhabited

/-- One completion slot of `_completions` (`promise<size_t>[_config.size]`).
`pending` is true while the slot holds the (moved-in, unfulfilled) promise of
a submitted buffer; `fired` lists the values `set_value` was called with. -/
structure CompletionSlot where
  pending : Bool
  fired : List Nat
deriving Repr, DecidableEq, Inhabited

/-- One used-ring element (`vring::used_elem`): `_id` and `_len`. -/
structure UsedElem where
  id : Nat
  len : Nat
deriving Repr, DecidableEq, Inhabited

/-- A producer-side buffer (`vring::buffer`) minus its promise: the promise is
modelled by the completion slot the submit loop moves it into. -/
structure Buffer where
  addr : Nat
  len : Nat
  writeable : Bool
deriving Repr, DecidableEq, Inhabited

/-- The state of one `vring`: the shared descriptor table / avail ring /
used ring, and the driver-private fields.  The host-written parts
(`usedRing`, `usedIdx`) are set externally by the scenarios. -/
structure VringState where
  size : Nat
  descs : List Desc
  freeDesc : Int
  sem : Nat
  availRing : List Nat
  availHead : Nat
  availIdx : Nat
  usedRing : List UsedElem
  usedIdx : Nat
  usedTail : Nat
  completions : List CompletionSlot
deriving Repr, DecidableEq, Inhabited

/-- `vring::masked`: `idx & (size() - 1)`. -/
def masked (s : VringState) (i : Nat) : Nat := i &&& (s.size - 1)

/-- `vring::allocate_desc`: assert the free list is non-empty, pop its head,
advance `_free_desc` to the popped descriptor's `_next`.  The guard covers the
source's `assert(_free_desc != -1)` together with the in-bounds requirement of
the unchecked `_descs[desc]` read (out of bounds would be undefined
behaviour); both abort the execution (`none`). -/
def allocate_desc (s : VringState) : Option (Nat × VringState) :=
  if 0 ≤ s.freeDesc ∧ s.freeDesc < (s.size : Int) then
    let d := s.freeDesc.toNat
    some (d, { s with freeDesc := Int.ofNat (s.descs.getD d default).next })
  else none

/-- `vring::free_desc`: `_descs[id]._next = _free_desc` (an `int` stored into
a `uint16_t`, hence truncated mod 2^16), `_free_desc = id`, and one signal of
the available-descriptors semaphore. -/
def free_desc (id : Nat) (s : VringState) : VringState :=
  { s with
    descs := s.descs.set id
      { s.descs.getD id default with next := (s.freeDesc % 65536).toNat }
    freeDesc := Int.ofNat id
    sem := s.sem + 1 }

/-- `vring::setup`: free every descriptor `0 ≤ i < _config.size`. -/
def setup (s : VringState) : VringState :=
  (List.range s.size).foldl (fun st i => free_desc i st) s

/-- The constructor-time state of a `vring` of `n` descriptors, before
`setup` runs: `_free_desc = -1`, semaphore at 0, default-constructed
completion slots, and (uninitialised, here zeroed) shared ring memory. -/
def vringInit (n : Nat) : VringState :=
  { size := n
    descs := List.replicate n default
    freeDesc := -1
    sem := 0
    availRing := List.replicate n 0
    availHead := 0
    availIdx := 0
    usedRing := List.replicate n default
    usedIdx := 0
    usedTail := 0
    completions := List.replicate n default }

/-- A freshly constructed vring: `vring::vring` runs `setup()`. -/
def freshVring (n : Nat) : VringState := setup (vringInit n)

/-- The inner loop of `vring::run` over one chain's buffers, already
reversed (`bc.rbegin()..bc.rend()`), carrying `has_prev` and
`prev_desc_idx`.  Each step allocates a descriptor, fills its fields from
the buffer, links it to the previously materialised descriptor, and moves
the buffer's completion promise into the descriptor's slot (a fresh pending
promise with no fulfilled values).  Returns the final `prev_desc_idx`
(the chain head). -/
def submitBuffers : List Buffer → Bool → Nat → VringState → Option (VringState × Nat)
  | [], _, prev, s => some (s, prev)
  | b :: rest, hasPrev, prev, s =>
    match allocate_desc s with
    | none => none
    | some (di, s1) =>
      let d : Desc :=
        { paddr := b.addr, dlen := b.len, hasNext := hasPrev,
          writeable := b.writeable, indirect := false, next := prev }
      let s2 := { s1 with
        descs := s1.descs.set di d
        completions := s1.completions.set di { pending := true, fired := [] } }
      submitBuffers rest true di s2

/-- One chain of the `vring::run` submit loop: materialise the buffers in
reverse order, then write the chain head into
`_avail._shared->_ring[masked(_avail._head++)]` (the head counter is a
`uint16_t`). -/
def submitChain (bc : List Buffer) (s : VringState) : Option VringState :=
  match submitBuffers bc.reverse false 0 s with
  | none => none
  | some (s1, head) =>
    some { s1 with
      availRing := s1.availRing.set (masked s1 s1.availHead) head
      availHead := (s1.availHead + 1) % 65536 }

/-- The body of `vring::run`'s continuation on a produced batch: place every
chain, then store `_avail._head` into the shared `_avail._shared->_idx`
(release).  The kick eventfd write that follows has no effect on the modelled
state. -/
def submitBatch (vbc : List (List Buffer)) (s : VringState) : Option VringState :=
  match vbc.foldlM (fun st bc => submitChain bc st) s with
  | none => none
  | some s1 => some { s1 with availIdx := s1.availHead }

/-- The reaping walk of `vring::complete`: starting from the used entry's
`id`, read the descriptor (unchecked in the source; out of bounds is modelled
as `none`), remember `_next` and `has_next`, free the descriptor, and
continue while `has_next` was set.  The source loop has no bound; `fuel`
makes the model total, with `none` on exhaustion (a walk that does not reach
a `HAS_NEXT = 0` descriptor within the fuel). -/
def freeChainStep : Nat → Nat → VringState → Option VringState
  | 0, _, _ => none
  | fuel + 1, id, s =>
    if id < s.size then
      let d := s.descs.getD id default
      let next := d.next
      let hasNext := d.hasNext
      let s1 := free_desc id s
      if hasNext then freeChainStep fuel next s1 else some s1
    else none

/-- One iteration of the `vring::complete` while-loop: read the used element
at `masked(_used._tail++)`, fulfil the completion promise in slot `_id` with
`_len`, then free the descriptor chain.  The unchecked `_completions[ue._id]`
access is guarded (out of bounds aborts, `none`), and `set_value` on a slot
that does not hold a pending promise (a slot the host does not currently own
a chain head for) violates the single-shot promise contract and also aborts. -/
def completeStep (s : VringState) : Option VringState :=
  let ue := s.usedRing.getD (masked s s.usedTail) default
  let s1 := { s with usedTail := (s.usedTail + 1) % 65536 }
  if ue.id < s.size then
    let slot := s1.completions.getD ue.id default
    if slot.pending then
      let s2 := { s1 with
        completions := s1.completions.set ue.id
          { pending := false, fired := slot.fired ++ [ue.len] } }
      freeChainStep s.size ue.id s2
    else none
  else none

/-- The `vring::complete` while-loop, by remaining iteration count. -/
def completeLoop : Nat → VringState → Option VringState
  | 0, s => some s
  | n + 1, s =>
    match completeStep s with
    | none => none
    | some s1 => completeLoop n s1

/-- `vring::complete`: load `used_head` from the shared `_used._shared->_idx`
(acquire) and loop while the local `uint16_t` tail differs; the tail
increments each iteration, so the loop runs `(used_head - used_tail) mod
2^16` times.  The trailing re-arm on the notified eventfd is external. -/
def complete (s : VringState) : Option VringState :=
  completeLoop ((65536 + s.usedIdx % 65536 - s.usedTail % 65536) % 65536) s

/-- The driver's free list as a predicate: `isFreeChain descs n fd fl` holds
when walking the intrusive list threaded through `_next` from `_free_desc =
fd` pops exactly the descriptor indices `fl` (in order) and then reaches a
terminator (any value outside `[0, n)`; the initial terminator is `-1`,
re-stored terminators are `65535`). -/
def isFreeChain (descs : List Desc) (n : Nat) : Int → List Nat → Bool
  | fd, [] => decide (fd < 0 ∨ (n : Int) ≤ fd)
  | fd, i :: rest =>
    fd == (i : Int) && decide (i < n) &&
      isFreeChain descs n (Int.ofNat (descs.getD i default).next) rest

/-- `isDescChain descs n id cd` holds when the reaping walk of
`vring::complete` started at `id` frees exactly the descriptors `cd` (in
walk order): each step follows `_next` while `HAS_NEXT` is set and stops at
the first descriptor with `HAS_NEXT` clear. -/
def isDescChain (descs : List Desc) (n : Nat) : Nat → List Nat → Bool
  | _, [] => false
  | id, i :: rest =>
    id == i && decide (i < n) &&
      (if (descs.getD i default).hasNext then
        isDescChain descs n (descs.getD i default).next rest
      else rest == [])

/-- Structural well-formedness of a vring state: the private arrays have
`_config.size` entries, `_free_desc` is `-1` or a stored `uint16_t` value,
every stored `_next` fits in a `uint16_t`, and the ring size is a non-zero
`uint16_t`-representable count. -/
structure WfState (s : VringState) : Prop where
  descsLen : s.descs.length = s.size
  compLen : s.completions.length = s.size
  availLen : s.availRing.length = s.size
  fdBound : s.freeDesc = -1 ∨ (0 ≤ s.freeDesc ∧ s.freeDesc < 65536)
  nextBound : ∀ d ∈ s.descs, d.next < 65536
  sizePos : 0 < s.size
  sizeBound : s.size ≤ 65535

/-- Total number of buffers in a batch of chains. -/
def totalBuffers (vbc : List (List Buffer)) : Nat :=
  (vbc.map List.length).sum

/-- The mock host of the round-trip scenario: copy the first `σ`-indexed
published avail entries into used elements (`id` = the chain head the driver
wrote at `_avail._shared->_ring[j]`, `len` as reported by the host). -/
def mockUsedRing (s1 : VringState) (σ lens : List Nat) : List UsedElem :=
  σ.map (fun j => { id := s1.availRing.getD j 0, len := lens.getD j 0 })

/-- The full submit-then-reap scenario on a freshly set-up vring of size `n`:
the producers await capacity for all `totalBuffers chains` descriptors (the
semaphore decrements at the grant), `run`'s continuation publishes the
batch, the host completes every published chain head in the order `σ`
(writing `chains.length` used elements and advancing the shared used index),
and the notified reap loop runs `complete`. -/
def roundTrip (n : Nat) (chains : List (List Buffer)) (σ lens : List Nat) :
    Option VringState :=
  let s0 := freshVring n
  let sW := { s0 with sem := s0.sem - totalBuffers chains }
  match submitBatch chains sW with
  | none => none
  | some s1 =>
    complete { s1 with
      usedRing := mockUsedRing s1 σ lens
      usedIdx := chains.length }

/-- A vring whose host wrote a used element naming a descriptor that does not
exist (`id = 7` in a ring of 4): the malformed-completion input of the
error-handling policy. -/
def malformedUsedState : VringState :=
  { freshVring 4 with usedRing := [{ id := 7, len := 0 }], usedIdx := 1 }

/-- A concrete mid-flight vring of size 4: descriptors 0→1 form a submitted
two-buffer chain (pending completion at the head slot 0), descriptors 3→2
are the free list, and the host has written one used element `{id=0,
len=7}`. -/
def reapWitnessState : VringState :=
  { size := 4
    descs :=
      [{ paddr := 100, dlen := 10, hasNext := true, writeable := false, indirect := false, next := 1 },
       { paddr := 200, dlen := 20, hasNext := false, writeable := false, indirect := false, next := 0 },
       { paddr := 0, dlen := 0, hasNext := false, writeable := false, indirect := false, next := 65535 },
       { paddr := 0, dlen := 0, hasNext := false, writeable := false, indirect := false, next := 2 }]
    freeDesc := 3
    sem := 2
    availRing := [0, 0, 0, 0]
    availHead := 1
    availIdx := 1
    usedRing := [{ id := 0, len := 7 }]
    usedIdx := 1
    usedTail := 0
    completions :=
      [{ pending := true, fired := [] },
       { pending := true, fired := [] },
       { pending := false, fired := [] },
       { pending := false, fired := [] }] }

/-! ## Device layer (`virtio_net_device`) -/

/-- A packet fragment: `{char* base, size_t size}` (the pointer is modelled
by its address; `virt_to_phys` is the identity map). -/
structure Fragment where
  base : Nat
  size : Nat
deriving Repr, DecidableEq, Inhabited

/-- The packet collaborator: a sequence of fragments. -/
structure Packet where
  fragments : List Fragment
deriving Repr, DecidableEq, Inhabited

/-- `virt_to_phys(p) = reinterpret_cast<uintptr_t>(p)`: the identity map. -/
def virt_to_phys (p : Nat) : Nat := p

/-- `sizeof(net_hdr)`: packed bitfield layout
`{u8, u8, u16, u16, u16, u16}` = 10 bytes. -/
def sizeof_net_hdr : Nat := 10

/-- `virtio_net_device::_header_len = sizeof(net_hdr)` (the mrg_buf
adjustment is never applied: merged RX buffers are disabled in the
constructor's feature set). -/
def header_len : Nat := sizeof_net_hdr

/-- The `net_hdr_mrg` the TX producer builds; `= {}` zero-initialises every
field. -/
structure NetHdrMrg where
  needs_csum : Nat := 0
  flags_reserved : Nat := 0
  gso_type : Nat := 0
  hdr_len : Nat := 0
  gso_size : Nat := 0
  csum_start : Nat := 0
  csum_offset : Nat := 0
  num_buffers : Nat := 0
deriving Repr, DecidableEq, Inhabited

/-- One round of `virtio_net_device::txq::transmit` after the TX-FIFO wait
granted packet `p`, with `vhdrAddr` the address of the zero-initialised
`net_hdr_mrg vhdr`.  The producer prepends the header fragment of
`_dev._header_len` bytes, computes `nbufs = q.fragments.size()` (the amount
it awaits on the engine's semaphore), and builds a single chain of
host-readable buffers, one per fragment, with the identity physical map.
Returns (the header value, the awaited descriptor count, the batch). -/
def transmit (p : Packet) (vhdrAddr : Nat) :
    NetHdrMrg × Nat × List (List Buffer) :=
  let vhdr : NetHdrMrg := {}
  let q : Packet := { fragments := { base := vhdrAddr, size := header_len } :: p.fragments }
  let nbufs := q.fragments.length
  let bc : List Buffer := q.fragments.map
    (fun f => { addr := virt_to_phys f.base, len := f.size, writeable := false })
  (vhdr, nbufs, [bc])

/-- One round of `virtio_net_device::rxq::prepare_buffers` after
`available.wait(1)` was granted, with `current` the semaphore's remaining
count at that point: `count = 1`, `opportunistic = available.current()`,
`try_wait(opportunistic)` always succeeds (the count equals the amount
requested), so `count = 1 + current` chains are built, each a fresh
single-buffer host-writable chain of 4096 bytes (`alloc i` is the address of
the `i`-th `new char[4096]`). -/
def prepare_buffers (current : Nat) (alloc : Nat → Nat) : List (List Buffer) :=
  (List.range (1 + current)).map
    (fun i => [{ addr := virt_to_phys (alloc i), len := 4096, writeable := true }])

/-- The packet an RX completion delivers: its fragment size and the bytes it
exposes (`content` is the 4096-byte buffer's contents). -/
structure RxPacket where
  size : Nat
  bytes : List Nat
deriving Repr, DecidableEq, Inhabited

/-- `size_t` subtraction: wraps modulo 2^64. -/
def size_t_sub (a b : Nat) : Nat := (a + 2 ^ 64 - b) % 2 ^ 64

/-- The RX completion continuation of `prepare_buffers`: on host-written
length `len`, build `packet p(fragment{buf + _dev._header_len,
len - _dev._header_len}, ...)`.  Both operands of the subtraction are
`size_t`, so the fragment size wraps modulo 2^64; there is no guard that
`len >= _header_len`.  The fragment exposes the buffer contents starting at
offset `_header_len`. -/
def rx_completion (content : List Nat) (len : Nat) : RxPacket :=
  let fragSize := size_t_sub len header_len
  { size := fragSize, bytes := (content.drop header_len).take fragSize }

/-- `virtio_net_device::queue_rx_packet`: push the packet onto the device
receive queue (and signal `_rx_queue_length`). -/
def queue_rx_packet (q : List RxPacket) (p : RxPacket) : List RxPacket :=
  q ++ [p]

/-- `virtio_net_device::receive`: await the receive-queue semaphore and pop
the front packet (`none` models the wait suspending on an empty queue). -/
def receive : List RxPacket → Option (RxPacket × List RxPacket)
  | [] => none
  | p :: rest => some (p, rest)

/-! ## Eventfd plumbing of the device constructor -/

/-- An eventfd pair as exposed by the reactor's `readable_eventfd` /
`writeable_eventfd` wrappers: a read end and a write end. -/
structure Eventfd where
  readFd : Nat
  writeFd : Nat
deriving Repr, DecidableEq, Inhabited

/-- The four file-descriptor numbers `virtio_net_device::init::init()`
extracts from its eventfds.  Translated field by field from the source; note
that the source initialises `_rxq_kick_fd` from `_txq_kick`
(`src/net/virtio.cc:290`). -/
structure InitFds where
  txq_notify_fd : Nat
  txq_kick_fd : Nat
  rxq_notify_fd : Nat
  rxq_kick_fd : Nat
deriving Repr, DecidableEq, Inhabited

/-- `init::init()`: `_txq_notify_fd = _txq_notify.get_write_fd(); _txq_kick_fd
= _txq_kick.get_read_fd(); _rxq_notify_fd = _rxq_notify.get_write_fd();
_rxq_kick_fd = _txq_kick.get_read_fd();`. -/
def initFds (txqNotify txqKick rxqNotify rxqKick : Eventfd) : InitFds :=
  { txq_notify_fd := txqNotify.writeFd
    txq_kick_fd := txqKick.readFd
    rxq_notify_fd := rxqNotify.writeFd
    rxq_kick_fd := txqKick.readFd }

/-- The `vhost_vring_file` argument of a `SET_VRING_KICK`/`SET_VRING_CALL`
ioctl. -/
structure VhostVringFile where
  idx : Nat
  fd : Nat
deriving Repr, DecidableEq, Inhabited

/-- The four kick/call registrations the `virtio_net_device` constructor
issues, in order (`src/net/virtio.cc:467-470`): kick for vring 0 (RX), call
for vring 0, kick for vring 1 (TX), call for vring 1. -/
structure KickCallRegistrations where
  kick0 : VhostVringFile
  call0 : VhostVringFile
  kick1 : VhostVringFile
  call1 : VhostVringFile
deriving Repr, DecidableEq, Inhabited

/-- The constructor's `SET_VRING_KICK`/`SET_VRING_CALL` ioctl arguments as a
function of the `init` member `x`. -/
def deviceRegistrations (x : InitFds) : KickCallRegistrations :=
  { kick0 := { idx := 0, fd := x.rxq_kick_fd }
    call0 := { idx := 0, fd := x.rxq_notify_fd }
    kick1 := { idx := 1, fd := x.txq_kick_fd }
    call1 := { idx := 1, fd := x.txq_notify_fd } }

/-! ## Capacity-accounting schedule model

The cooperative scheduler interleaves the submit loop, the reap loop and the
producers at suspension points (spec section 5).  The events below are the
three actions of the code that touch the available-descriptors semaphore or
the free list, in the order the code performs them:

* `free`: one `vring::free_desc` (during `setup` or the reap walk) — pushes
  a descriptor and signals the semaphore;
* `reserve nr`: a producer's `available.wait(nr)` is granted — the semaphore
  count drops by `nr` at the grant, before control returns to the submit
  loop (the grant and the later allocation are separated by at least the
  suspension at the submit loop's await of the producer future); the free
  list is untouched here;
* `alloc`: one `vring::allocate_desc` in the submit loop — pops a
  descriptor, does not touch the semaphore.

`reserved` is the ghost count of granted-but-not-yet-allocated descriptors
(`alloc` requires a prior grant: callers must have waited on the semaphore
for the chain length before allocating). -/
structure CapState where
  sem : Nat
  freeLen : Nat
  reserved : Nat
deriving Repr, DecidableEq, Inhabited

/-- The capacity-relevant events of a schedule. -/
inductive CapEvent where
  | free : CapEvent
  | reserve : Nat → CapEvent
  | alloc : CapEvent
deriving Repr, DecidableEq, Inhabited

/-- One scheduled event; guards are the code's blocking conditions
(`semaphore::wait` only returns once the count covers the request;
`allocate_desc` asserts a non-empty free list and is only called for
reserved capacity). -/
def capStep (s : CapState) : CapEvent → Option CapState
  | .free => some { sem := s.sem + 1, freeLen := s.freeLen + 1, reserved := s.reserved }
  | .reserve nr =>
    if nr ≤ s.sem then
      some { sem := s.sem - nr, freeLen := s.freeLen, reserved := s.reserved + nr }
    else none
  | .alloc =>
    if 1 ≤ s.freeLen ∧ 1 ≤ s.reserved then
      some { sem := s.sem, freeLen := s.freeLen - 1, reserved := s.reserved - 1 }
    else none

/-- A schedule run from the constructor-time state (semaphore 0, empty free
list, nothing reserved). -/
def capRun (es : List CapEvent) : Option CapState :=
  es.foldlM capStep { sem := 0, freeLen := 0, reserved := 0 }

/-! ## TX completion/destructor ordering model

Modelled from the spec: the futures/promises of the async runtime
(`core/reactor.hh`) are not part of the sources; spec section 1 lists them as
external collaborators and section 9 fixes the ownership chain "the
continuation owns the packet, the promise owns the continuation, the
descriptor slot owns the promise".  A continuation attached with `then` to a
single-shot promise's future runs at most once, and only after the promise
is fulfilled.  From the source, `txq::transmit` attaches the continuation
that owns the packet (and therefore runs its destructor) to
`bc[0].completed` — the head buffer's completion promise
(`src/net/virtio.cc:379`), the promise that `vring::complete` fulfils at the
chain-head slot. -/
structure TxTraceState where
  fired : List Nat
  ran : List Nat
deriving Repr, DecidableEq, Inhabited

/-- Observable events of a TX chain's lifetime: `fireCompletion i` is
`vring::complete` fulfilling the completion promise in slot `i`
(`src/net/virtio.cc:260`); `runContinuation i` is the runtime running the
continuation attached to slot `i`'s future — for the chain-head slot this is
the continuation holding the packet, whose execution ends the packet's
lifetime (the destructor runs). -/
inductive TxEvent where
  | fireCompletion : Nat → TxEvent
  | runContinuation : Nat → TxEvent
deriving Repr, DecidableEq, Inhabited

/-- One runtime step.  A single-shot promise is fulfilled at most once; a
continuation runs at most once and only once its promise is fulfilled. -/
def txStep (s : TxTraceState) : TxEvent → Option TxTraceState
  | .fireCompletion i =>
    if i ∈ s.fired then none else some { fired := s.fired ++ [i], ran := s.ran }
  | .runContinuation i =>
    if i ∈ s.fired ∧ i ∉ s.ran then some { fired := s.fired, ran := s.ran ++ [i] }
    else none

/-- Execute a schedule of completion/continuation events from the state
where the chain is published and owned by the host (nothing fired, nothing
run). -/
def txExec (es : List TxEvent) : Option TxTraceState :=
  es.foldlM txStep { fired := [], ran := [] }

/-- The destructor event of a TX packet whose chain head occupies completion
slot `headSlot`: running the continuation `txq::transmit` attached to the
head buffer's completion. -/
def txPacketDestructor (headSlot : Nat) : TxEvent :=
  .runContinuation headSlot

/-- Frame of `submitBuffers`: the state fields the inner submit loop never
touches (it only allocates descriptors, writes descriptor entries and moves
completion promises). -/
structure SubmitInv (s s' : VringState) : Prop where
  size : s'.size = s.size
  sem : s'.sem = s.sem
  availRing : s'.availRing = s.availRing
  availHead : s'.availHead = s.availHead
  availIdx : s'.availIdx = s.availIdx
  usedRing : s'.usedRing = s.usedRing
  usedIdx : s'.usedIdx = s.usedIdx
  usedTail : s'.usedTail = s.usedTail
  descsLen : s'.descs.length = s.descs.length
  compLen : s'.completions.length = s.completions.length

/-! ## List and bit helpers -/

theorem getD_set_self {α : Type} [Inhabited α] (l : List α) (i : Nat) (v : α)
    (h : i < l.length) : (l.set i v).getD i default = v := by
  simp [List.getD_eq_getElem?_getD, List.getElem?_set_self, h]

theorem getD_set_ne {α : Type} [Inhabited α] (l : List α) {i j : Nat} (v : α)
    (h : i ≠ j) : (l.set i v).getD j default = l.getD j default := by
  simp [List.getD_eq_getElem?_getD, List.getElem?_set_ne h]

theorem getD_mem {α : Type} [Inhabited α] {l : List α} {i : Nat}
    (h : i < l.length) : l.getD i default ∈ l := by
  rw [List.getD_eq_getElem?_getD, List.getElem?_eq_getElem h]
  exact List.getElem_mem h

theorem land_two_pow_sub_one (i m : Nat) : i &&& (2 ^ m - 1) = i % 2 ^ m := by
  apply Nat.eq_of_testBit_eq
  intro j
  simp [Nat.testBit_and, Nat.testBit_mod_two_pow, Nat.testBit_two_pow_sub_one,
    Bool.and_comm]

theorem nodup_lt_length_le {l : List Nat} {n : Nat} (hnd : l.Nodup)
    (hlt : ∀ x ∈ l, x < n) : l.length ≤ n := by
  have hsub : l.toFinset ⊆ Finset.range n := by
    intro x hx
    simp only [List.mem_toFinset] at hx
    exact Finset.mem_range.mpr (hlt x hx)
  have := Finset.card_le_card hsub
  rwa [List.toFinset_card_of_nodup hnd, Finset.card_range] at this

/-! ## Free-list lemmas -/

theorem isFreeChain_mem {descs : List Desc} {n : Nat} {fd : Int} {fl : List Nat}
    (h : isFreeChain descs n fd fl = true) : ∀ j ∈ fl, j < n := by
  induction fl generalizing fd with
  | nil => intro j hj; cases hj
  | cons a rest ih =>
    simp only [isFreeChain, Bool.and_eq_true, decide_eq_true_eq] at h
    intro j hj
    rcases List.mem_cons.mp hj with rfl | hj
    · exact h.1.2
    · exact ih h.2 j hj

theorem isFreeChain_congr {descs descs' : List Desc} {n : Nat} {fd : Int}
    {fl : List Nat} (h : isFreeChain descs n fd fl = true)
    (hsame : ∀ j ∈ fl, descs'.getD j default = descs.getD j default) :
    isFreeChain descs' n fd fl = true := by
  induction fl generalizing fd with
  | nil => exact h
  | cons a rest ih =>
    simp only [isFreeChain, Bool.and_eq_true] at h ⊢
    refine ⟨h.1, ?_⟩
    rw [hsame a (List.mem_cons_self a rest)]
    exact ih h.2 (fun j hj => hsame j (List.mem_cons_of_mem a hj))

theorem isFreeChain_emod {descs : List Desc} {n : Nat} {fd : Int}
    {fl : List Nat} (h : isFreeChain descs n fd fl = true)
    (hfd : fd = -1 ∨ (0 ≤ fd ∧ fd < 65536)) (hn : n ≤ 65535) :
    isFreeChain descs n (Int.ofNat (fd % 65536).toNat) fl = true := by
  cases fl with
  | nil =>
    simp only [isFreeChain, decide_eq_true_eq, Int.ofNat_eq_coe] at h ⊢
    omega
  | cons a rest =>
    simp only [isFreeChain, Bool.and_eq_true, beq_iff_eq, decide_eq_true_eq,
      Int.ofNat_eq_coe] at h ⊢
    obtain ⟨⟨hfa, ha⟩, hrest⟩ := h
    exact ⟨⟨by omega, ha⟩, hrest⟩

theorem isFreeChain_push {descs : List Desc} {n : Nat} {fd : Int}
    {fl : List Nat} {i : Nat}
    (h : isFreeChain descs n fd fl = true) (hi : i < n) (hmem : i ∉ fl)
    (hfd : fd = -1 ∨ (0 ≤ fd ∧ fd < 65536)) (hn : n ≤ 65535)
    (hlen : i < descs.length) :
    isFreeChain
      (descs.set i { descs.getD i default with next := (fd % 65536).toNat })
      n (Int.ofNat i) (i :: fl) = true := by
  have hstep := isFreeChain_emod h hfd hn
  have hcongr : isFreeChain
      (descs.set i { descs.getD i default with next := (fd % 65536).toNat })
      n (Int.ofNat (fd % 65536).toNat) fl = true :=
    isFreeChain_congr hstep
      (fun j hj => getD_set_ne descs _ (fun hij => hmem (hij ▸ hj)))
  simp only [isFreeChain, Bool.and_eq_true, beq_iff_eq, decide_eq_true_eq]
  refine ⟨⟨rfl, hi⟩, ?_⟩
  rwa [getD_set_self descs i _ hlen]

/-- Popping the free-list head: `allocate_desc` succeeds on a non-empty free
chain and leaves the tail as the free chain. -/
theorem allocate_desc_spec {s : VringState} {fl : List Nat} {a : Nat}
    (h : isFreeChain s.descs s.size s.freeDesc (a :: fl) = true) :
    allocate_desc s =
      some (a, { s with freeDesc := Int.ofNat (s.descs.getD a default).next }) ∧
    isFreeChain s.descs s.size (Int.ofNat (s.descs.getD a default).next) fl
      = true := by
  simp only [isFreeChain, Bool.and_eq_true, beq_iff_eq, decide_eq_true_eq] at h
  obtain ⟨⟨hfd, ha⟩, hrest⟩ := h
  constructor
  · simp only [allocate_desc, hfd]
    rw [if_pos (by exact ⟨Int.natCast_nonneg a, by exact_mod_cast ha⟩)]
    simp
  · exact hrest

/-! ## Setup -/

theorem free_desc_size (id : Nat) (s : VringState) :
    (free_desc id s).size = s.size := rfl

theorem free_desc_sem (id : Nat) (s : VringState) :
    (free_desc id s).sem = s.sem + 1 := rfl

theorem free_desc_freeDesc (id : Nat) (s : VringState) :
    (free_desc id s).freeDesc = Int.ofNat id := rfl

theorem free_desc_availRing (id : Nat) (s : VringState) :
    (free_desc id s).availRing = s.availRing := rfl

theorem free_desc_availHead (id : Nat) (s : VringState) :
    (free_desc id s).availHead = s.availHead := rfl

theorem free_desc_availIdx (id : Nat) (s : VringState) :
    (free_desc id s).availIdx = s.availIdx := rfl

theorem free_desc_usedRing (id : Nat) (s : VringState) :
    (free_desc id s).usedRing = s.usedRing := rfl

theorem free_desc_usedIdx (id : Nat) (s : VringState) :
    (free_desc id s).usedIdx = s.usedIdx := rfl

theorem free_desc_usedTail (id : Nat) (s : VringState) :
    (free_desc id s).usedTail = s.usedTail := rfl

theorem free_desc_completions (id : Nat) (s : VringState) :
    (free_desc id s).completions = s.completions := rfl

theorem free_desc_descsLen (id : Nat) (s : VringState) :
    (free_desc id s).descs.length = s.descs.length := by
  simp [free_desc]

theorem free_desc_descs_getD_ne (id : Nat) (s : VringState) {j : Nat}
    (h : id ≠ j) :
    (free_desc id s).descs.getD j default = s.descs.getD j default := by
  simp only [free_desc]
  exact getD_set_ne _ _ h

theorem free_desc_nextBound (id : Nat) (s : VringState)
    (hnb : ∀ d ∈ s.descs, d.next < 65536) :
    ∀ d ∈ (free_desc id s).descs, d.next < 65536 := by
  intro d hd
  simp only [free_desc] at hd
  rcases List.mem_or_eq_of_mem_set hd with hd | rfl
  · exact hnb d hd
  · simp only []
    omega

theorem setup_fold_spec (l : List Nat) (s : VringState) (fl : List Nat)
    (hlt : ∀ i ∈ l, i < s.size) (hnd : l.Nodup) (hdisj : ∀ i ∈ l, i ∉ fl)
    (hfl : isFreeChain s.descs s.size s.freeDesc fl = true)
    (hfd : s.freeDesc = -1 ∨ (0 ≤ s.freeDesc ∧ s.freeDesc < 65536))
    (hlen : s.descs.length = s.size) (hsz : s.size ≤ 65535)
    (hnb : ∀ d ∈ s.descs, d.next < 65536) :
    let s' := l.foldl (fun st i => free_desc i st) s
    isFreeChain s'.descs s.size s'.freeDesc (l.reverse ++ fl) = true ∧
    s'.sem = s.sem + l.length ∧ s'.descs.length = s.size ∧
    (s'.freeDesc = -1 ∨ (0 ≤ s'.freeDesc ∧ s'.freeDesc < 65536)) ∧
    (∀ d ∈ s'.descs, d.next < 65536) ∧
    s'.size = s.size ∧ s'.availRing = s.availRing ∧
    s'.availHead = s.availHead ∧ s'.availIdx = s.availIdx ∧
    s'.usedRing = s.usedRing ∧ s'.usedIdx = s.usedIdx ∧
    s'.usedTail = s.usedTail ∧ s'.completions = s.completions := by
  induction l generalizing s fl with
  | nil =>
    exact ⟨hfl, rfl, hlen, hfd, hnb, rfl, rfl, rfl, rfl, rfl, rfl, rfl, rfl⟩
  | cons i rest ih =>
    have hi : i < s.size := hlt i (List.mem_cons_self i rest)
    have hilen : i < s.descs.length := by omega
    have hfl1 : isFreeChain (free_desc i s).descs (free_desc i s).size
        (free_desc i s).freeDesc (i :: fl) = true := by
      rw [free_desc_size, free_desc_freeDesc]
      show isFreeChain _ s.size (Int.ofNat i) (i :: fl) = true
      exact isFreeChain_push hfl hi (hdisj i (List.mem_cons_self i rest)) hfd hsz hilen
    have hnd1 : rest.Nodup := (List.nodup_cons.mp hnd).2
    have hlt1 : ∀ j ∈ rest, j < (free_desc i s).size := by
      intro j hj
      rw [free_desc_size]
      exact hlt j (List.mem_cons_of_mem i hj)
    have hdisj1 : ∀ j ∈ rest, j ∉ i :: fl := by
      intro j hj hmem
      rcases List.mem_cons.mp hmem with rfl | hmem
      · exact (List.nodup_cons.mp hnd).1 hj
      · exact hdisj j (List.mem_cons_of_mem i hj) hmem
    have hfd1 : (free_desc i s).freeDesc = -1 ∨
        (0 ≤ (free_desc i s).freeDesc ∧ (free_desc i s).freeDesc < 65536) := by
      rw [free_desc_freeDesc]
      right
      simp only [Int.ofNat_eq_coe]
      omega
    have hlen1 : (free_desc i s).descs.length = (free_desc i s).size := by
      rw [free_desc_descsLen, free_desc_size, hlen]
    have hnb1 := free_desc_nextBound i s hnb
    have hsz1 : (free_desc i s).size ≤ 65535 := by rw [free_desc_size]; exact hsz
    obtain ⟨A, B, C, D, E, F, G, H, I, J, K, L, M⟩ :=
      ih (free_desc i s) (i :: fl) hlt1 hnd1 hdisj1 hfl1 hfd1 hlen1 hsz1 hnb1
    rw [free_desc_size] at A C F
    rw [free_desc_sem] at B
    rw [free_desc_availRing] at G
    rw [free_desc_availHead] at H
    rw [free_desc_availIdx] at I
    rw [free_desc_usedRing] at J
    rw [free_desc_usedIdx] at K
    rw [free_desc_usedTail] at L
    rw [free_desc_completions] at M
    simp only [List.foldl_cons]
    refine ⟨?_, ?_, C, D, E, F, G, H, I, J, K, L, M⟩
    · rw [List.reverse_cons, List.append_assoc]
      exact A
    · rw [B, List.length_cons]
      omega

/-- The state after `vring::vring` (construction runs `setup`): every
descriptor is on the free list (`n-1` on top, `0` at the bottom), the
semaphore counts `n`, and the state is well-formed. -/
theorem freshVring_spec (n : Nat) (h1 : 0 < n) (h2 : n ≤ 65535) :
    isFreeChain (freshVring n).descs n (freshVring n).freeDesc
      (List.range n).reverse = true ∧
    (freshVring n).sem = n ∧
    WfState (freshVring n) ∧
    (freshVring n).size = n ∧ (freshVring n).availHead = 0 ∧
    (freshVring n).usedTail = 0 ∧ (freshVring n).usedIdx = 0 ∧
    (freshVring n).availRing.length = n ∧
    (freshVring n).completions = List.replicate n default := by
  have hsz : (vringInit n).size = n := rfl
  have hfl0 : isFreeChain (vringInit n).descs (vringInit n).size
      (vringInit n).freeDesc [] = true := by
    simp [isFreeChain, vringInit]
  obtain ⟨A, B, C, D, E, F, G, H, I, J, K, L, M⟩ :=
    setup_fold_spec (List.range n) (vringInit n) []
      (fun i hi => by simpa [vringInit] using List.mem_range.mp hi)
      (List.nodup_range n) (fun i _ h => nomatch h) hfl0 (Or.inl rfl)
      (by simp [vringInit]) (by simpa [vringInit] using h2)
      (fun d hd => by
        have := List.eq_of_mem_replicate hd
        subst this
        show (default : Desc).next < 65536
        simp [default])
  have hfresh : freshVring n = (List.range n).foldl
      (fun st i => free_desc i st) (vringInit n) := rfl
  rw [hsz] at A C F
  rw [List.append_nil] at A
  have hsem : (freshVring n).sem = n := by
    rw [hfresh, B]
    simp [vringInit]
  refine ⟨by rw [hfresh]; exact A, hsem, ?_, by rw [hfresh, F], ?_, ?_, ?_, ?_, ?_⟩
  · refine ⟨?_, ?_, ?_, ?_, ?_, ?_, ?_⟩
    · rw [hfresh, C, F]
    · rw [hfresh, M, F]
      simp [vringInit]
    · rw [hfresh, G, F]
      simp [vringInit]
    · rw [hfresh]; exact D
    · rw [hfresh]; exact E
    · rw [hfresh, F]; exact h1
    · rw [hfresh, F]; exact h2
  · rw [hfresh, H]
    rfl
  · rw [hfresh, L]
    rfl
  · rw [hfresh, K]
    rfl
  · rw [hfresh, G]
    simp [vringInit]
  · rw [hfresh, M]
    rfl

/-! ## The submit loop -/

theorem submitInv_refl (s : VringState) : SubmitInv s s :=
  ⟨rfl, rfl, rfl, rfl, rfl, rfl, rfl, rfl, rfl, rfl⟩

theorem submitInv_trans {a b c : VringState} (h1 : SubmitInv a b)
    (h2 : SubmitInv b c) : SubmitInv a c := by
  obtain ⟨e1, e2, e3, e4, e5, e6, e7, e8, e9, e10⟩ := h1
  obtain ⟨f1, f2, f3, f4, f5, f6, f7, f8, f9, f10⟩ := h2
  exact ⟨f1.trans e1, f2.trans e2, f3.trans e3, f4.trans e4, f5.trans e5,
    f6.trans e6, f7.trans e7, f8.trans e8, f9.trans e9, f10.trans e10⟩

/-- Full characterisation of the inner submit loop on the reversed buffer
list `l`: it pops the first `l.length` free descriptors (in order), fills
the `i`-th popped descriptor from `l`'s `i`-th buffer linking it to the
previously materialised one, moves a fresh pending promise into its
completion slot, touches nothing else, and returns the last popped
descriptor as the chain head. -/
theorem submitBuffers_spec (l : List Buffer) (hp : Bool) (prev : Nat)
    (s : VringState) (fl : List Nat)
    (hfl : isFreeChain s.descs s.size s.freeDesc fl = true)
    (hnd : fl.Nodup)
    (hcap : l.length ≤ fl.length)
    (hlen : s.descs.length = s.size)
    (hclen : s.completions.length = s.size)
    (hfd : s.freeDesc = -1 ∨ (0 ≤ s.freeDesc ∧ s.freeDesc < 65536))
    (hnb : ∀ d ∈ s.descs, d.next < 65536)
    (hpb : prev < 65536)
    (hsz : s.size ≤ 65535) :
    ∃ s', submitBuffers l hp prev s = some (s', (fl.take l.length).getLastD prev) ∧
      SubmitInv s s' ∧
      isFreeChain s'.descs s.size s'.freeDesc (fl.drop l.length) = true ∧
      (s'.freeDesc = -1 ∨ (0 ≤ s'.freeDesc ∧ s'.freeDesc < 65536)) ∧
      (∀ d ∈ s'.descs, d.next < 65536) ∧
      (∀ j, j ∉ fl.take l.length →
        s'.descs.getD j default = s.descs.getD j default ∧
        s'.completions.getD j default = s.completions.getD j default) ∧
      (∀ i, i < l.length →
        s'.descs.getD (fl.getD i 0) default =
          { paddr := (l.getD i default).addr
            dlen := (l.getD i default).len
            hasNext := if i = 0 then hp else true
            writeable := (l.getD i default).writeable
            indirect := false
            next := if i = 0 then prev else fl.getD (i - 1) 0 } ∧
        s'.completions.getD (fl.getD i 0) default
          = { pending := true, fired := [] }) := by
  induction l generalizing hp prev s fl with
  | nil =>
    exact ⟨s, rfl, submitInv_refl s, hfl, hfd, hnb,
      fun j _ => ⟨rfl, rfl⟩, fun i hi => absurd hi (by simp)⟩
  | cons b rest ih =>
    cases fl with
    | nil => simp at hcap
    | cons a fl₂ =>
      obtain ⟨halloc, hfl₂⟩ := allocate_desc_spec hfl
      have ha : a < s.size :=
        isFreeChain_mem hfl a (List.mem_cons_self a fl₂)
      have halen : a < s.descs.length := by omega
      have haclen : a < s.completions.length := by omega
      have hnotmem : a ∉ fl₂ := (List.nodup_cons.mp hnd).1
      set d : Desc := ({ paddr := b.addr, dlen := b.len, hasNext := hp, writeable := b.writeable, indirect := false, next := prev } : Desc) with hd
      set s2 : VringState := ({ s with freeDesc := Int.ofNat (s.descs.getD a default).next, descs := s.descs.set a d, completions := s.completions.set a { pending := true, fired := [] } } : VringState) with hs2
      have hrun : submitBuffers (b :: rest) hp prev s = submitBuffers rest true a s2 := by
        simp only [submitBuffers, halloc]
      have hfl2' : isFreeChain s2.descs s2.size s2.freeDesc fl₂ = true := by
        show isFreeChain (s.descs.set a d) s.size
          (Int.ofNat (s.descs.getD a default).next) fl₂ = true
        exact isFreeChain_congr hfl₂
          (fun j hj => getD_set_ne _ _ (fun h => hnotmem (h ▸ hj)))
      have hnd₂ : fl₂.Nodup := (List.nodup_cons.mp hnd).2
      have hcap₂ : rest.length ≤ fl₂.length := by
        simpa using hcap
      have hlen₂ : s2.descs.length = s2.size := by
        show (s.descs.set a d).length = s.size
        simp [hlen]
      have hclen₂ : s2.completions.length = s2.size := by
        show (s.completions.set a _).length = s.size
        simp [hclen]
      have hfd₂ : s2.freeDesc = -1 ∨ (0 ≤ s2.freeDesc ∧ s2.freeDesc < 65536) := by
        right
        have : (s.descs.getD a default).next < 65536 := hnb _ (getD_mem halen)
        show (0:Int) ≤ Int.ofNat (s.descs.getD a default).next ∧
          Int.ofNat (s.descs.getD a default).next < 65536
        simp only [Int.ofNat_eq_coe]
        omega
      have hnb₂ : ∀ e ∈ s2.descs, e.next < 65536 := by
        intro e he
        rcases List.mem_or_eq_of_mem_set he with he | rfl
        · exact hnb e he
        · show prev < 65536
          exact hpb
      have hpb₂ : a < 65536 := by omega
      have hsz₂ : s2.size ≤ 65535 := hsz
      obtain ⟨s', hrun', hinv', hfree', hfd', hnb', hframe', hcontent'⟩ :=
        ih true a s2 fl₂ hfl2' hnd₂ hcap₂ hlen₂ hclen₂ hfd₂ hnb₂ hpb₂ hsz₂
      have hinv2 : SubmitInv s s2 := by
        refine ⟨rfl, rfl, rfl, rfl, rfl, rfl, rfl, rfl, ?_, ?_⟩
        · show (s.descs.set a d).length = s.descs.length
          simp
        · show (s.completions.set a _).length = s.completions.length
          simp
      refine ⟨s', ?_, submitInv_trans hinv2 hinv', ?_, hfd', hnb', ?_, ?_⟩
      · rw [hrun, hrun', List.length_cons, List.take_succ_cons, List.getLastD_cons]
      · have : s2.size = s.size := rfl
        rw [List.length_cons, List.drop_succ_cons]
        rw [this] at hfree'
        exact hfree'
      · intro j hj
        rw [List.length_cons, List.take_succ_cons] at hj
        have hja : j ≠ a := fun h => hj (h ▸ List.mem_cons_self a _)
        have hjrest : j ∉ fl₂.take rest.length :=
          fun h => hj (List.mem_cons_of_mem a h)
        obtain ⟨hdj, hcj⟩ := hframe' j hjrest
        constructor
        · rw [hdj]
          show (s.descs.set a d).getD j default = s.descs.getD j default
          exact getD_set_ne _ _ (fun h => hja h.symm)
        · rw [hcj]
          show (s.completions.set a _).getD j default = s.completions.getD j default
          exact getD_set_ne _ _ (fun h => hja h.symm)
      · intro i hi
        cases i with
        | zero =>
          have hafl : a ∉ fl₂.take rest.length :=
            fun h => hnotmem (List.take_subset _ _ h)
          obtain ⟨hdj, hcj⟩ := hframe' a hafl
          simp only [List.getD_cons_zero, List.length_cons]
          constructor
          · rw [hdj]
            show (s.descs.set a d).getD a default = _
            rw [getD_set_self _ _ _ halen]
            simp [hd]
          · rw [hcj]
            show (s.completions.set a _).getD a default = _
            rw [getD_set_self _ _ _ haclen]
        | succ i' =>
          rw [List.length_cons] at hi
          have hi' : i' < rest.length := by omega
          obtain ⟨hdj, hcj⟩ := hcontent' i' hi'
          simp only [List.getD_cons_succ]
          constructor
          · rw [hdj]
            congr 1
            · simp
            · cases i' with
              | zero => simp
              | succ i'' => simp [List.getD_cons_succ]
          · exact hcj

theorem getD_set_eqD {α : Type} (l : List α) (i : Nat) (v : α) (d : α)
    (h : i < l.length) : (l.set i v).getD i d = v := by
  simp [List.getD_eq_getElem?_getD, List.getElem?_set_self, h]

theorem getD_set_neD {α : Type} (l : List α) {i j : Nat} (v : α) (d : α)
    (h : i ≠ j) : (l.set i v).getD j d = l.getD j d := by
  simp [List.getD_eq_getElem?_getD, List.getElem?_set_ne h]

theorem getD_memD {α : Type} {l : List α} {i : Nat} (d : α)
    (h : i < l.length) : l.getD i d ∈ l := by
  rw [List.getD_eq_getElem?_getD, List.getElem?_eq_getElem h]
  exact List.getElem_mem h

theorem getD_reverse {α : Type} (l : List α) (d : α) {i : Nat}
    (h : i < l.length) :
    l.reverse.getD i d = l.getD (l.length - 1 - i) d := by
  have h' : i < l.reverse.length := by simpa using h
  rw [List.getD_eq_getElem?_getD, List.getD_eq_getElem?_getD,
    List.getElem?_eq_getElem h', List.getElem?_eq_getElem (by omega)]
  simp [List.getElem_reverse]

theorem getD_take {α : Type} (l : List α) (d : α) {k i : Nat}
    (h : i < k) (h2 : i < l.length) :
    (l.take k).getD i d = l.getD i d := by
  have h' : i < (l.take k).length := by simp; omega
  rw [List.getD_eq_getElem?_getD, List.getD_eq_getElem?_getD,
    List.getElem?_eq_getElem h', List.getElem?_eq_getElem h2]
  simp [List.getElem_take]

theorem masked_lt (s : VringState) (i : Nat) (h : 0 < s.size) :
    masked s i < s.size := by
  have := Nat.and_le_right (n := i) (m := s.size - 1)
  unfold masked
  omega

/-- Building an `isDescChain` certificate from indexed link facts. -/
theorem isDescChain_build (descs : List Desc) (n : Nat) :
    ∀ cd : List Nat, cd ≠ [] →
    (∀ i, i < cd.length → cd.getD i 0 < n) →
    (∀ i, i + 1 < cd.length →
      (descs.getD (cd.getD i 0) default).next = cd.getD (i + 1) 0 ∧
      (descs.getD (cd.getD i 0) default).hasNext = true) →
    ((descs.getD (cd.getD (cd.length - 1) 0) default).hasNext = false) →
    isDescChain descs n (cd.getD 0 0) cd = true := by
  intro cd
  induction cd with
  | nil => intro h; exact absurd rfl h
  | cons x rest ih =>
    intro _ hmem hlink hlast
    have hx : x < n := by simpa using hmem 0 (by simp)
    cases rest with
    | nil =>
      have hl : (descs.getD x default).hasNext = false := by simpa using hlast
      have e : isDescChain descs n x [x]
          = (x == x && decide (x < n) &&
            (if (descs.getD x default).hasNext then
              isDescChain descs n (descs.getD x default).next []
            else (([] : List Nat) == []))) := rfl
      simp only [List.getD_cons_zero]
      rw [e, hl]
      simp [hx]
    | cons y rest2 =>
      have h0 := hlink 0 (by simp)
      simp only [List.getD_cons_zero, List.getD_cons_succ] at h0
      have hres : isDescChain descs n ((y :: rest2).getD 0 0) (y :: rest2)
          = true := by
        apply ih (by simp)
        · intro i hi
          have := hmem (i + 1) (by simp only [List.length_cons] at hi ⊢; omega)
          simpa using this
        · intro i hi
          have := hlink (i + 1) (by simp only [List.length_cons] at hi ⊢; omega)
          simpa using this
        · have hidx : (x :: y :: rest2).length - 1
              = ((y :: rest2).length - 1) + 1 := by simp
          rw [hidx, List.getD_cons_succ] at hlast
          exact hlast
      simp only [List.getD_cons_zero] at hres
      have e : isDescChain descs n x (x :: y :: rest2)
          = (x == x && decide (x < n) &&
            (if (descs.getD x default).hasNext then
              isDescChain descs n (descs.getD x default).next (y :: rest2)
            else ((y :: rest2) == []))) := rfl
      simp only [List.getD_cons_zero]
      rw [e, h0.1, h0.2]
      simp [hx, hres]

/-- One chain through the submit loop: allocation from the free list,
reverse materialisation, publication of the head in the avail ring, and the
resulting reap-chain certificate. -/
theorem submitChain_spec (bc : List Buffer) (s : VringState) (fl : List Nat)
    (hfl : isFreeChain s.descs s.size s.freeDesc fl = true)
    (hnd : fl.Nodup)
    (hk : bc ≠ [])
    (hcap : bc.length ≤ fl.length)
    (hlen : s.descs.length = s.size)
    (hclen : s.completions.length = s.size)
    (havail : s.availRing.length = s.size)
    (hfd : s.freeDesc = -1 ∨ (0 ≤ s.freeDesc ∧ s.freeDesc < 65536))
    (hnb : ∀ d ∈ s.descs, d.next < 65536)
    (hpos : 0 < s.size)
    (hsz : s.size ≤ 65535) :
    ∃ s', submitChain bc s = some s' ∧
      (s'.size = s.size ∧ s'.sem = s.sem ∧ s'.usedRing = s.usedRing ∧
        s'.usedIdx = s.usedIdx ∧ s'.usedTail = s.usedTail ∧
        s'.availIdx = s.availIdx) ∧
      s'.availHead = (s.availHead + 1) % 65536 ∧
      (s'.descs.length = s.size ∧ s'.completions.length = s.size ∧
        s'.availRing.length = s.size) ∧
      s'.availRing.getD (masked s s.availHead) 0
        = (fl.take bc.length).getLastD 0 ∧
      (∀ p, p ≠ masked s s.availHead →
        s'.availRing.getD p 0 = s.availRing.getD p 0) ∧
      (∀ j, j ∉ fl.take bc.length →
        s'.descs.getD j default = s.descs.getD j default ∧
        s'.completions.getD j default = s.completions.getD j default) ∧
      (∀ i, i < bc.length →
        s'.descs.getD (fl.getD (bc.length - 1 - i) 0) default =
          { paddr := (bc.getD i default).addr
            dlen := (bc.getD i default).len
            hasNext := if i = bc.length - 1 then false else true
            writeable := (bc.getD i default).writeable
            indirect := false
            next := if i = bc.length - 1 then 0
              else fl.getD (bc.length - 1 - (i + 1)) 0 }) ∧
      (∀ i, i < bc.length →
        s'.completions.getD (fl.getD i 0) default
          = { pending := true, fired := [] }) ∧
      isFreeChain s'.descs s.size s'.freeDesc (fl.drop bc.length) = true ∧
      (s'.freeDesc = -1 ∨ (0 ≤ s'.freeDesc ∧ s'.freeDesc < 65536)) ∧
      (∀ d ∈ s'.descs, d.next < 65536) ∧
      isDescChain s'.descs s.size ((fl.take bc.length).getLastD 0)
        ((fl.take bc.length).reverse) = true := by
  obtain ⟨s1, hrun, hinv, hfree, hfd', hnb', hframe, hcontent⟩ :=
    submitBuffers_spec bc.reverse false 0 s fl hfl hnd
      (by simpa using hcap) hlen hclen hfd hnb (by omega) hsz
  rw [List.length_reverse] at hrun hframe hcontent hfree
  set k := bc.length with hkdef
  have hk1 : 1 ≤ k := by
    cases bc with
    | nil => exact absurd rfl hk
    | cons _ _ => simp [hkdef]
  -- the final state after publishing the head
  set s' : VringState := ({ s1 with availRing := s1.availRing.set (masked s1 s1.availHead) ((fl.take k).getLastD 0), availHead := (s1.availHead + 1) % 65536 } : VringState) with hs'
  have hchain : submitChain bc s = some s' := by
    simp only [submitChain, hrun]
  have hmaskeq : masked s1 s1.availHead = masked s s.availHead := by
    unfold masked
    rw [hinv.size, hinv.availHead]
  have hmlt : masked s s.availHead < s.size := masked_lt s _ hpos
  have havail1 : s1.availRing.length = s.size := by
    rw [hinv.availRing, havail]
  -- content of the raw (reversed) orientation, reindexed to buffer order
  have hcontent2 : ∀ i, i < k →
      s1.descs.getD (fl.getD (k - 1 - i) 0) default =
        { paddr := (bc.getD i default).addr
          dlen := (bc.getD i default).len
          hasNext := if i = k - 1 then false else true
          writeable := (bc.getD i default).writeable
          indirect := false
          next := if i = k - 1 then 0 else fl.getD (k - 1 - (i + 1)) 0 } := by
    intro i hi
    have hj : k - 1 - i < k := by omega
    obtain ⟨hdj, _⟩ := hcontent (k - 1 - i) hj
    have hrev : bc.reverse.getD (k - 1 - i) default = bc.getD i default := by
      rw [getD_reverse bc default (by omega)]
      congr 1
      omega
    rw [hrev] at hdj
    rw [hdj]
    congr 1
    · by_cases h0 : i = k - 1
      · rw [if_pos (by omega : k - 1 - i = 0), if_pos h0]
      · rw [if_neg (by omega : ¬ k - 1 - i = 0), if_neg h0]
    · by_cases h0 : i = k - 1
      · rw [if_pos (by omega : k - 1 - i = 0), if_pos h0]
      · rw [if_neg (by omega : ¬ k - 1 - i = 0), if_neg h0,
          show k - 1 - i - 1 = k - 1 - (i + 1) from by omega]
  have hfltk : (fl.take k).length = k := by
    simp
    omega
  -- the chain certificate
  have hcert : isDescChain s1.descs s.size ((fl.take k).getLastD 0)
      ((fl.take k).reverse) = true := by
    have hne : (fl.take k).reverse ≠ [] := by
      intro h
      have := congrArg List.length h
      simp [hfltk] at this
      omega
    have hgd : ∀ i, i < k →
        (fl.take k).reverse.getD i 0 = fl.getD (k - 1 - i) 0 := by
      intro i hi
      have h2 : ((fl.take k).reverse.getD i 0)
          = (fl.take k).getD ((fl.take k).length - 1 - i) 0 := by
        rw [getD_reverse (fl.take k) 0 (by rw [hfltk]; omega)]
      rw [h2, hfltk]
      exact getD_take fl 0 (by omega) (by omega)
    have hhead0 : (fl.take k).getLastD 0 = (fl.take k).reverse.getD 0 0 := by
      rw [hgd 0 (by omega)]
      have h1 : (fl.take k).getLastD 0
          = (fl.take k).getD ((fl.take k).length - 1) 0 := by
        rw [List.getLastD_eq_getLast?, List.getLast?_eq_getElem?,
          List.getD_eq_getElem?_getD]
      rw [h1, hfltk]
      exact getD_take fl 0 (by omega) (by omega)
    have hlenrev : (fl.take k).reverse.length = k := by simp [hfltk]
    rw [hhead0]
    apply isDescChain_build s1.descs s.size ((fl.take k).reverse) hne
    · intro i hi
      rw [hlenrev] at hi
      rw [hgd i hi]
      exact isFreeChain_mem hfl _ (getD_memD 0 (by omega))
    · intro i hi
      rw [hlenrev] at hi
      rw [hgd i (by omega), hgd (i + 1) (by omega)]
      rw [hcontent2 i (by omega)]
      refine ⟨?_, ?_⟩
      · simp [show ¬ i = k - 1 from by omega]
      · simp [show ¬ i = k - 1 from by omega]
    · rw [hlenrev, hgd (k - 1) (by omega)]
      have hlast := hcontent2 (k - 1) (by omega)
      rw [show k - 1 - (k - 1) = 0 from by omega] at hlast
      rw [show k - 1 - (k - 1) = 0 from by omega, hlast]
      simp
  -- assembly
  refine ⟨s', hchain, ⟨hinv.size, hinv.sem, hinv.usedRing, hinv.usedIdx,
      hinv.usedTail, hinv.availIdx⟩, ?_, ⟨?_, ?_, ?_⟩, ?_, ?_, ?_, ?_, ?_,
      hfree, hfd', hnb', hcert⟩
  · show (s1.availHead + 1) % 65536 = (s.availHead + 1) % 65536
    rw [hinv.availHead]
  · show s1.descs.length = s.size
    rw [hinv.descsLen, hlen]
  · show s1.completions.length = s.size
    rw [hinv.compLen, hclen]
  · show (s1.availRing.set (masked s1 s1.availHead) _).length = s.size
    rw [List.length_set, havail1]
  · show (s1.availRing.set (masked s1 s1.availHead) _).getD
        (masked s s.availHead) 0 = (fl.take k).getLastD 0
    rw [hmaskeq]
    exact getD_set_eqD _ _ _ _ (by rw [havail1]; exact hmlt)
  · intro p hp
    show (s1.availRing.set (masked s1 s1.availHead) _).getD p 0
        = s.availRing.getD p 0
    rw [hmaskeq]
    rw [getD_set_neD _ _ _ (fun h => hp h.symm)]
    rw [hinv.availRing]
  · exact hframe
  · exact hcontent2
  · intro i hi
    exact (hcontent i hi).2

theorem masked_congr {s s' : VringState} (h : s'.size = s.size) (i : Nat) :
    masked s' i = masked s i := by
  unfold masked
  rw [h]

theorem isDescChain_congr {descs descs' : List Desc} {n : Nat} {id : Nat}
    {cd : List Nat} (h : isDescChain descs n id cd = true)
    (hsame : ∀ j ∈ cd, descs'.getD j default = descs.getD j default) :
    isDescChain descs' n id cd = true := by
  induction cd generalizing id with
  | nil => simp [isDescChain] at h
  | cons i rest ih =>
    have e : ∀ ds : List Desc, isDescChain ds n id (i :: rest)
        = (id == i && decide (i < n) &&
          (if (ds.getD i default).hasNext then
            isDescChain ds n (ds.getD i default).next rest
          else (rest == []))) := fun ds => rfl
    rw [e] at h
    rw [e, hsame i (List.mem_cons_self i rest)]
    simp only [Bool.and_eq_true] at h ⊢
    refine ⟨h.1, ?_⟩
    by_cases hnx : (descs.getD i default).hasNext
    · rw [if_pos hnx] at h ⊢
      exact ih h.2 (fun j hj => hsame j (List.mem_cons_of_mem i hj))
    · rw [if_neg hnx] at h ⊢
      exact h.2

theorem take_drop_disjoint {fl : List Nat} (hnd : fl.Nodup) (k : Nat) :
    ∀ j ∈ fl.take k, j ∉ fl.drop k := by
  have h := List.take_append_drop k fl
  rw [← h] at hnd
  exact fun j hj => (List.nodup_append.mp hnd).2.2 hj

theorem getLastD_eq_reverse_getD (l : List Nat) :
    l.getLastD 0 = l.reverse.getD 0 0 := by
  rw [List.getLastD_eq_getLast?, List.getD_eq_getElem?_getD,
    ← List.head?_reverse, List.head?_eq_getElem?]

theorem flatten_map_reverse_perm (C : List (List Nat)) :
    (C.map List.reverse).flatten.Perm C.flatten := by
  induction C with
  | nil => simp
  | cons c rest ih =>
    simp only [List.map_cons, List.flatten_cons]
    exact List.Perm.append (List.reverse_perm c) ih

/-- The submit loop over a whole produced batch, starting at avail-ring
position `s.availHead` with no wrap (`availHead + chains.length ≤ size` and
`masked` the identity below `size`): every chain is placed, the free list
loses exactly the batch's descriptors, and each chain head is published at
consecutive avail slots with a pending completion and a reap certificate. -/
theorem submitChains_fold_spec (chains : List (List Buffer)) (s : VringState)
    (fl : List Nat)
    (hfl : isFreeChain s.descs s.size s.freeDesc fl = true)
    (hnd : fl.Nodup)
    (hne : ∀ bc ∈ chains, bc ≠ [])
    (hcap : totalBuffers chains ≤ fl.length)
    (hlen : s.descs.length = s.size)
    (hclen : s.completions.length = s.size)
    (havail : s.availRing.length = s.size)
    (hfd : s.freeDesc = -1 ∨ (0 ≤ s.freeDesc ∧ s.freeDesc < 65536))
    (hnb : ∀ d ∈ s.descs, d.next < 65536)
    (hpos : 0 < s.size)
    (hsz : s.size ≤ 65535)
    (hhead : s.availHead + chains.length ≤ s.size)
    (hmask : ∀ i, i < s.size → masked s i = i) :
    ∃ s1 C,
      chains.foldlM (fun st bc => submitChain bc st) s = some s1 ∧
      List.length C = chains.length ∧
      (∀ j, j < chains.length → C.getD j [] ≠ []) ∧
      (C.map List.reverse).flatten = fl.take (totalBuffers chains) ∧
      isFreeChain s1.descs s.size s1.freeDesc
        (fl.drop (totalBuffers chains)) = true ∧
      (s1.freeDesc = -1 ∨ (0 ≤ s1.freeDesc ∧ s1.freeDesc < 65536)) ∧
      (∀ d ∈ s1.descs, d.next < 65536) ∧
      s1.size = s.size ∧ s1.sem = s.sem ∧ s1.usedRing = s.usedRing ∧
      s1.usedIdx = s.usedIdx ∧ s1.usedTail = s.usedTail ∧
      s1.availHead = s.availHead + chains.length ∧
      s1.descs.length = s.size ∧ s1.completions.length = s.size ∧
      s1.availRing.length = s.size ∧
      (∀ j, j ∉ fl.take (totalBuffers chains) →
        s1.descs.getD j default = s.descs.getD j default ∧
        s1.completions.getD j default = s.completions.getD j default) ∧
      (∀ p, p < s.availHead → s1.availRing.getD p 0 = s.availRing.getD p 0) ∧
      (∀ j, j < chains.length →
        s1.availRing.getD (s.availHead + j) 0 = (C.getD j []).getD 0 0 ∧
        isDescChain s1.descs s.size ((C.getD j []).getD 0 0) (C.getD j [])
          = true ∧
        s1.completions.getD ((C.getD j []).getD 0 0) default
          = { pending := true, fired := [] }) := by
  induction chains generalizing s fl with
  | nil =>
    refine ⟨s, [], rfl, rfl, ?_, ?_, ?_, hfd, hnb, rfl, rfl, rfl, rfl, rfl,
      by simp, hlen, hclen, havail, ?_, ?_, ?_⟩
    · intro j hj
      simp at hj
    · simp [totalBuffers]
    · simpa [totalBuffers] using hfl
    · intro j _
      exact ⟨rfl, rfl⟩
    · intro p _
      rfl
    · intro j hj
      simp at hj
  | cons bc rest ih =>
    set k := bc.length with hkdef
    have hbcne : bc ≠ [] := hne bc (List.mem_cons_self bc rest)
    have hk1 : 1 ≤ k := by
      cases bc with
      | nil => exact absurd rfl hbcne
      | cons _ _ => simp [hkdef]
    have htot : totalBuffers (bc :: rest) = k + totalBuffers rest := by
      simp [totalBuffers]
    rw [htot] at hcap
    simp only [List.length_cons] at hhead
    obtain ⟨s2, hchain, ⟨hsize2, hsem2, hur2, hui2, hut2, hai2⟩, hah2,
        ⟨hdlen2, hcplen2, haw2⟩, hheadent, havframe2, hframe2, hcontent2,
        hpend2, hfree2, hfd2, hnb2, hcert2⟩ :=
      submitChain_spec bc s fl hfl hnd hbcne (by omega) hlen hclen havail
        hfd hnb hpos hsz
    have hdrnd : (fl.drop k).Nodup := (List.drop_sublist k fl).nodup hnd
    have hmask2 : ∀ i, i < s2.size → masked s2 i = i := by
      intro i hi
      rw [masked_congr hsize2]
      exact hmask i (by omega)
    have hah2' : s2.availHead = s.availHead + 1 := by
      rw [hah2, Nat.mod_eq_of_lt (by omega)]
    obtain ⟨s1, C', hfold, hClen, hCne, hCflat, hfree1, hfd1, hnb1, hsize1,
        hsem1, hur1, hui1, hut1, hah1, hdlen1, hcplen1, haw1, hframe1,
        havframe1, hchains1⟩ :=
      ih s2 (fl.drop k)
        (by rw [hsize2]; exact hfree2)
        hdrnd
        (fun b hb => hne b (List.mem_cons_of_mem bc hb))
        (by simp; omega)
        (by rw [hdlen2, hsize2])
        (by rw [hcplen2, hsize2])
        (by rw [haw2, hsize2])
        hfd2 hnb2 (by omega) (by omega)
        (by rw [hah2', hsize2]; omega)
        hmask2
    -- disjointness: the first chain's descriptors are untouched afterwards
    have hdisj : ∀ j ∈ fl.take k, j ∉ (fl.drop k).take (totalBuffers rest) :=
      fun j hj hmem =>
        take_drop_disjoint hnd k j hj (List.take_subset _ _ hmem)
    have hcd0 : ∀ j ∈ (fl.take k).reverse,
        s1.descs.getD j default = s2.descs.getD j default ∧
        s1.completions.getD j default = s2.completions.getD j default := by
      intro j hj
      rw [List.mem_reverse] at hj
      exact hframe1 j (hdisj j hj)
    refine ⟨s1, (fl.take k).reverse :: C', ?_, ?_, ?_, ?_, ?_, hfd1, hnb1,
      ?_, ?_, ?_, ?_, ?_, ?_, ?_, ?_, ?_, ?_, ?_, ?_⟩
    · rw [List.foldlM_cons, hchain]
      exact hfold
    · simp [hClen]
    · intro j hj
      cases j with
      | zero =>
        simp only [List.getD_cons_zero]
        intro h
        have h2 := congrArg List.length h
        rw [List.length_reverse, List.length_take] at h2
        simp only [List.length_nil] at h2
        omega
      | succ j' =>
        simp only [List.getD_cons_succ]
        exact hCne j' (by simpa using hj)
    · simp only [List.map_cons, List.flatten_cons, List.reverse_reverse,
        hCflat, htot]
      rw [List.take_add]
    · rw [htot, ← hsize2]
      rw [List.drop_drop] at hfree1
      exact hfree1
    · rw [hsize1, hsize2]
    · rw [hsem1, hsem2]
    · rw [hur1, hur2]
    · rw [hui1, hui2]
    · rw [hut1, hut2]
    · rw [hah1, hah2']
      simp only [List.length_cons]
      omega
    · rw [hdlen1, hsize2]
    · rw [hcplen1, hsize2]
    · rw [haw1, hsize2]
    · intro j hj
      rw [htot, List.take_add] at hj
      have hj1 : j ∉ fl.take k := fun h => hj (List.mem_append_left _ h)
      have hj2 : j ∉ (fl.drop k).take (totalBuffers rest) :=
        fun h => hj (List.mem_append_right _ h)
      obtain ⟨e1, e2⟩ := hframe1 j hj2
      obtain ⟨f1, f2⟩ := hframe2 j hj1
      exact ⟨e1.trans f1, e2.trans f2⟩
    · intro p hp
      have h1 : s1.availRing.getD p 0 = s2.availRing.getD p 0 :=
        havframe1 p (by omega)
      rw [h1]
      exact havframe2 p (by rw [hmask s.availHead (by omega)]; omega)
    · intro j hj
      cases j with
      | zero =>
        simp only [List.getD_cons_zero, Nat.add_zero]
        have hheadlt : s.availHead < s.size := by omega
        have hmaskid := hmask s.availHead hheadlt
        have hav : s1.availRing.getD s.availHead 0
            = s2.availRing.getD s.availHead 0 := by
          apply havframe1
          omega
        rw [hav, ← hmaskid]
        have hrevhead : (fl.take k).getLastD 0 = (fl.take k).reverse.getD 0 0 :=
          getLastD_eq_reverse_getD _
        refine ⟨by rw [hheadent, hrevhead], ?_, ?_⟩
        · apply isDescChain_congr (by rw [← hrevhead]; exact hcert2)
          intro j hj
          exact (hcd0 j hj).1
        · have hfltk2 : (fl.take k).length = k := by
            simp
            omega
          have hheadfl : (fl.take k).reverse.getD 0 0 = fl.getD (k - 1) 0 := by
            rw [← getLastD_eq_reverse_getD]
            have h1 : (fl.take k).getLastD 0
                = (fl.take k).getD ((fl.take k).length - 1) 0 := by
              rw [List.getLastD_eq_getLast?, List.getLast?_eq_getElem?,
                List.getD_eq_getElem?_getD]
            rw [h1, hfltk2]
            exact getD_take fl 0 (by omega) (by omega)
          have hmem0 : (fl.take k).reverse.getD 0 0 ∈ (fl.take k).reverse := by
            apply getD_memD
            rw [List.length_reverse, hfltk2]
            omega
          rw [(hcd0 _ hmem0).2, hheadfl]
          exact hpend2 (k - 1) (by omega)
      | succ j' =>
        simp only [List.getD_cons_succ]
        have := hchains1 j' (by simpa using hj)
        rw [hah2'] at this
        obtain ⟨e1, e2, e3⟩ := this
        refine ⟨?_, by rw [← hsize2]; exact e2, e3⟩
        rw [show s.availHead + (j' + 1) = s.availHead + 1 + j' from by omega]
        exact e1

/-! ## The reap loop -/

theorem isDescChain_head {descs : List Desc} {n id : Nat} {cd : List Nat}
    (h : isDescChain descs n id cd = true) :
    cd ≠ [] ∧ cd.getD 0 0 = id ∧ id < n := by
  cases cd with
  | nil => simp [isDescChain] at h
  | cons i rest =>
    have e : isDescChain descs n id (i :: rest)
        = (id == i && decide (i < n) &&
          (if (descs.getD i default).hasNext then
            isDescChain descs n (descs.getD i default).next rest
          else (rest == []))) := rfl
    rw [e] at h
    simp only [Bool.and_eq_true, beq_iff_eq, decide_eq_true_eq] at h
    exact ⟨by simp, by simp [h.1.1], h.1.1 ▸ h.1.2⟩

theorem isDescChain_mem {descs : List Desc} {n : Nat} :
    ∀ {id : Nat} {cd : List Nat}, isDescChain descs n id cd = true →
    ∀ j ∈ cd, j < n := by
  intro id cd
  induction cd generalizing id with
  | nil => intro h; simp [isDescChain] at h
  | cons i rest ih =>
    intro h j hj
    have e : isDescChain descs n id (i :: rest)
        = (id == i && decide (i < n) &&
          (if (descs.getD i default).hasNext then
            isDescChain descs n (descs.getD i default).next rest
          else (rest == []))) := rfl
    rw [e] at h
    simp only [Bool.and_eq_true, beq_iff_eq, decide_eq_true_eq] at h
    rcases List.mem_cons.mp hj with rfl | hj
    · exact h.1.2
    · by_cases hnx : (descs.getD i default).hasNext
      · rw [if_pos hnx] at h
        exact ih h.2 j hj
      · rw [if_neg hnx] at h
        simp only [beq_iff_eq] at h
        rw [h.2] at hj
        cases hj

/-- The reaping walk frees exactly the certified chain, pushing its
descriptors onto the free list in walk order (so the last-freed is the new
free-list head) and signalling the semaphore once per descriptor. -/
theorem freeChainStep_spec (cd : List Nat) (fuel : Nat) (s : VringState)
    (fl : List Nat)
    (hcd : isDescChain s.descs s.size (cd.getD 0 0) cd = true)
    (hnd : (cd ++ fl).Nodup)
    (hfuel : cd.length ≤ fuel)
    (hfl : isFreeChain s.descs s.size s.freeDesc fl = true)
    (hlen : s.descs.length = s.size)
    (hfd : s.freeDesc = -1 ∨ (0 ≤ s.freeDesc ∧ s.freeDesc < 65536))
    (hnb : ∀ d ∈ s.descs, d.next < 65536)
    (hsz : s.size ≤ 65535) :
    ∃ s', freeChainStep fuel (cd.getD 0 0) s = some s' ∧
      isFreeChain s'.descs s.size s'.freeDesc (cd.reverse ++ fl) = true ∧
      s'.sem = s.sem + cd.length ∧
      s'.completions = s.completions ∧
      s'.size = s.size ∧ s'.availRing = s.availRing ∧
      s'.availHead = s.availHead ∧ s'.availIdx = s.availIdx ∧
      s'.usedRing = s.usedRing ∧ s'.usedIdx = s.usedIdx ∧
      s'.usedTail = s.usedTail ∧ s'.descs.length = s.size ∧
      (s'.freeDesc = -1 ∨ (0 ≤ s'.freeDesc ∧ s'.freeDesc < 65536)) ∧
      (∀ d ∈ s'.descs, d.next < 65536) ∧
      (∀ j, j ∉ cd → s'.descs.getD j default = s.descs.getD j default) := by
  induction cd generalizing fuel s fl with
  | nil => simp [isDescChain] at hcd
  | cons i rest ih =>
    simp only [List.getD_cons_zero] at hcd ⊢
    have e : isDescChain s.descs s.size i (i :: rest)
        = (i == i && decide (i < s.size) &&
          (if (s.descs.getD i default).hasNext then
            isDescChain s.descs s.size (s.descs.getD i default).next rest
          else (rest == []))) := rfl
    rw [e] at hcd
    simp only [Bool.and_eq_true, beq_iff_eq, decide_eq_true_eq, beq_self_eq_true,
      true_and] at hcd
    obtain ⟨hi, hrest⟩ := hcd
    have hilen : i < s.descs.length := by omega
    have hifl : i ∉ fl := by
      have := (List.nodup_cons.mp hnd).1
      exact fun h => this (List.mem_append_right rest h)
    obtain ⟨f, rfl⟩ : ∃ f, fuel = f + 1 := by
      cases fuel with
      | zero => simp at hfuel
      | succ f => exact ⟨f, rfl⟩
    have hpush : isFreeChain (free_desc i s).descs s.size
        (free_desc i s).freeDesc (i :: fl) = true := by
      rw [free_desc_freeDesc]
      exact isFreeChain_push hfl hi hifl hfd hsz hilen
    have hfd1 : (free_desc i s).freeDesc = -1 ∨
        (0 ≤ (free_desc i s).freeDesc ∧ (free_desc i s).freeDesc < 65536) := by
      rw [free_desc_freeDesc]
      right
      simp only [Int.ofNat_eq_coe]
      omega
    have hstep : freeChainStep (f + 1) i s =
        (if (s.descs.getD i default).hasNext then
          freeChainStep f (s.descs.getD i default).next (free_desc i s)
        else some (free_desc i s)) := by
      simp only [freeChainStep, if_pos hi]
    by_cases hnx : (s.descs.getD i default).hasNext
    · -- the chain continues
      rw [if_pos hnx] at hrest
      obtain ⟨hrne, hrhead, _⟩ := isDescChain_head hrest
      have hcd1 : isDescChain (free_desc i s).descs s.size
          (rest.getD 0 0) rest = true := by
        apply isDescChain_congr (by rw [hrhead]; exact hrest)
        intro j hj
        apply free_desc_descs_getD_ne
        intro hij
        exact (List.nodup_cons.mp hnd).1 (List.mem_append_left fl (hij ▸ hj))
      have hnd1 : (rest ++ (i :: fl)).Nodup := by
        have hperm : (i :: (rest ++ fl)).Perm (rest ++ i :: fl) :=
          List.perm_middle.symm
        exact hperm.nodup hnd
      obtain ⟨s', hrun, hfree, hsem, hcomp, hsize, har, hah, hai, hur, hui,
          hut, hdl, hfd', hnb', hframe⟩ :=
        ih f (free_desc i s) (i :: fl)
          (by rw [free_desc_size]; exact hcd1)
          hnd1 (by simpa using hfuel)
          (by rw [free_desc_size]; exact hpush)
          (by rw [free_desc_descsLen, free_desc_size, hlen])
          hfd1 (free_desc_nextBound i s hnb)
          (by rw [free_desc_size]; exact hsz)
      rw [free_desc_size] at hsize hdl
      refine ⟨s', ?_, ?_, ?_, ?_, hsize, ?_, ?_, ?_, ?_, ?_, ?_, hdl, hfd',
          hnb', ?_⟩
      · rw [hstep, if_pos hnx, ← hrhead]
        exact hrun
      · rw [List.reverse_cons, List.append_assoc]
        simpa using hfree
      · rw [hsem, free_desc_sem]
        simp only [List.length_cons]
        omega
      · rw [hcomp, free_desc_completions]
      · rw [har, free_desc_availRing]
      · rw [hah, free_desc_availHead]
      · rw [hai, free_desc_availIdx]
      · rw [hur, free_desc_usedRing]
      · rw [hui, free_desc_usedIdx]
      · rw [hut, free_desc_usedTail]
      · intro j hj
        have hj1 : j ∉ rest := fun h => hj (List.mem_cons_of_mem i h)
        have hj2 : i ≠ j := fun h => hj (h ▸ List.mem_cons_self i rest)
        rw [hframe j hj1]
        exact free_desc_descs_getD_ne i s hj2
    · -- last descriptor of the chain
      rw [if_neg hnx] at hrest
      simp only [beq_iff_eq] at hrest
      subst hrest
      refine ⟨free_desc i s, ?_, ?_, ?_, free_desc_completions i s,
          free_desc_size i s, free_desc_availRing i s, free_desc_availHead i s,
          free_desc_availIdx i s, free_desc_usedRing i s, free_desc_usedIdx i s,
          free_desc_usedTail i s, ?_, hfd1, free_desc_nextBound i s hnb, ?_⟩
      · rw [hstep, if_neg hnx]
      · simpa using hpush
      · rw [free_desc_sem]
        simp
      · rw [free_desc_descsLen, hlen]
      · intro j hj
        exact free_desc_descs_getD_ne i s (fun h => hj (by simp [h]))

/-- One used-ring entry through the reap loop: the promise in slot `id` is
fulfilled exactly once with `len`, exactly the certified chain is freed (one
semaphore signal per descriptor), and the local used tail advances once. -/
theorem completeStep_spec (s : VringState) (id len : Nat) (cd fl : List Nat)
    (hue : s.usedRing.getD (masked s s.usedTail) default = { id := id, len := len })
    (hcd : isDescChain s.descs s.size id cd = true)
    (hpend : s.completions.getD id default = { pending := true, fired := [] })
    (hfl : isFreeChain s.descs s.size s.freeDesc fl = true)
    (hnd : (cd ++ fl).Nodup)
    (hlen : s.descs.length = s.size)
    (hclen : s.completions.length = s.size)
    (hfd : s.freeDesc = -1 ∨ (0 ≤ s.freeDesc ∧ s.freeDesc < 65536))
    (hnb : ∀ d ∈ s.descs, d.next < 65536)
    (hsz : s.size ≤ 65535) :
    ∃ s', completeStep s = some s' ∧
      s'.completions.getD id default = { pending := false, fired := [len] } ∧
      (∀ j, j ≠ id → s'.completions.getD j default
        = s.completions.getD j default) ∧
      isFreeChain s'.descs s.size s'.freeDesc (cd.reverse ++ fl) = true ∧
      s'.sem = s.sem + cd.length ∧
      s'.usedTail = (s.usedTail + 1) % 65536 ∧
      s'.size = s.size ∧ s'.availRing = s.availRing ∧
      s'.availHead = s.availHead ∧ s'.availIdx = s.availIdx ∧
      s'.usedRing = s.usedRing ∧ s'.usedIdx = s.usedIdx ∧
      s'.descs.length = s.size ∧ s'.completions.length = s.size ∧
      (s'.freeDesc = -1 ∨ (0 ≤ s'.freeDesc ∧ s'.freeDesc < 65536)) ∧
      (∀ d ∈ s'.descs, d.next < 65536) ∧
      (∀ j, j ∉ cd → s'.descs.getD j default = s.descs.getD j default) := by
  obtain ⟨hcdne, hcdhead, hid⟩ := isDescChain_head hcd
  have hidc : id < s.completions.length := by omega
  set s2 : VringState := ({ s with usedTail := (s.usedTail + 1) % 65536, completions := s.completions.set id { pending := false, fired := [] ++ [len] } } : VringState) with hs2
  have hstep : completeStep s = freeChainStep s.size id s2 := by
    simp only [completeStep, hue]
    rw [if_pos hid]
    have hslot : ({ s with usedTail := (s.usedTail + 1) % 65536 } :
        VringState).completions.getD id default
        = { pending := true, fired := [] } := hpend
    rw [hslot]
    rfl
  have hcdnd : cd.Nodup := (List.nodup_append.mp hnd).1
  have hcdlt : ∀ j ∈ cd, j < s.size := isDescChain_mem hcd
  have hfuel : cd.length ≤ s.size := nodup_lt_length_le hcdnd hcdlt
  have hcd2 : isDescChain s2.descs s2.size (cd.getD 0 0) cd = true := by
    show isDescChain s.descs s.size (cd.getD 0 0) cd = true
    rw [hcdhead]
    exact hcd
  obtain ⟨s', hrun, hfree, hsem, hcomp, hsize, har, hah, hai, hur, hui, hut,
      hdl, hfd', hnb', hframe⟩ :=
    freeChainStep_spec cd s.size s2 fl hcd2 hnd hfuel hfl hlen hfd hnb hsz
  have hrun' : freeChainStep s.size id s2 = some s' := by
    rw [← hcdhead]
    exact hrun
  refine ⟨s', by rw [hstep]; exact hrun', ?_, ?_, hfree, ?_, ?_, hsize, har,
      hah, hai, hur, hui, hdl, ?_, hfd', hnb', hframe⟩
  · rw [hcomp]
    show (s.completions.set id _).getD id default = _
    rw [getD_set_eqD _ _ _ _ hidc]
    rfl
  · intro j hj
    rw [hcomp]
    show (s.completions.set id _).getD j default = _
    exact getD_set_neD _ _ _ (fun h => hj h.symm)
  · rw [hsem]
  · rw [hut]
  · rw [hcomp]
    show (s.completions.set id _).length = s.size
    rw [List.length_set, hclen]

/-- The reap loop over `σs.length` used entries, where the entry consumed at
step `t` names the head of chain `σs[t]` (an arbitrary completion order over
the pairwise-disjoint chains `C`): every named chain is freed, the final
free list is a permutation of all their descriptors on top of the starting
one, the semaphore gains one count per freed descriptor, and the local tail
advances once per entry. -/
theorem completeLoop_fold_spec (σs : List Nat) (C : List (List Nat))
    (s : VringState) (fl : List Nat)
    (hσ : ∀ j ∈ σs, j < C.length)
    (hσnd : σs.Nodup)
    (hchains : ∀ j ∈ σs,
      isDescChain s.descs s.size ((C.getD j []).getD 0 0) (C.getD j []) = true)
    (hpend : ∀ j ∈ σs,
      s.completions.getD ((C.getD j []).getD 0 0) default
        = { pending := true, fired := [] })
    (hfl : isFreeChain s.descs s.size s.freeDesc fl = true)
    (hnd : ((σs.map (fun j => C.getD j [])).flatten ++ fl).Nodup)
    (hentries : ∀ t, t < σs.length →
      (s.usedRing.getD (s.usedTail + t) default).id
        = (C.getD (σs.getD t 0) []).getD 0 0)
    (hmask : ∀ i, i < s.size → masked s i = i)
    (htail : s.usedTail + σs.length ≤ s.size)
    (hlen : s.descs.length = s.size)
    (hclen : s.completions.length = s.size)
    (hfd : s.freeDesc = -1 ∨ (0 ≤ s.freeDesc ∧ s.freeDesc < 65536))
    (hnb : ∀ d ∈ s.descs, d.next < 65536)
    (hsz : s.size ≤ 65535) :
    ∃ s' fl', completeLoop σs.length s = some s' ∧
      isFreeChain s'.descs s.size s'.freeDesc fl' = true ∧
      fl'.Perm ((σs.map (fun j => C.getD j [])).flatten ++ fl) ∧
      s'.sem = s.sem + ((σs.map (fun j => C.getD j [])).flatten).length ∧
      s'.usedTail = s.usedTail + σs.length ∧
      s'.usedRing = s.usedRing ∧
      s'.size = s.size := by
  induction σs generalizing s fl with
  | nil =>
    exact ⟨s, fl, rfl, hfl, by simp, by simp, rfl, rfl, rfl⟩
  | cons j σ' ih =>
    have hjk : j < C.length := hσ j (List.mem_cons_self j σ')
    set cd : List Nat := C.getD j [] with hcddef
    have hflat : ((j :: σ').map (fun x => C.getD x [])).flatten
        = cd ++ (σ'.map (fun x => C.getD x [])).flatten := by
      simp [hcddef]
    rw [hflat] at hnd
    have hcd : isDescChain s.descs s.size (cd.getD 0 0) cd = true :=
      hchains j (List.mem_cons_self j σ')
    obtain ⟨hcdne, _, hcdhd⟩ := isDescChain_head hcd
    have htail0 : s.usedTail < s.size := by
      simp only [List.length_cons] at htail
      omega
    have hue0 : (s.usedRing.getD (s.usedTail + 0) default).id = cd.getD 0 0 := by
      have := hentries 0 (by simp)
      simpa [hcddef] using this
    have hue : s.usedRing.getD (masked s s.usedTail) default
        = { id := cd.getD 0 0,
            len := (s.usedRing.getD s.usedTail default).len } := by
      rw [hmask s.usedTail htail0]
      rw [← hue0]
      simp
    have hndsub : (cd ++ fl).Nodup := by
      have hsub : (cd ++ fl).Sublist
          (cd ++ ((σ'.map (fun x => C.getD x [])).flatten ++ fl)) :=
        List.Sublist.append_left (List.sublist_append_right _ _) cd
      exact hsub.nodup (by simpa [List.append_assoc] using hnd)
    obtain ⟨s2, hstep, hcompid, hcompne, hfree2, hsem2, hut2, hsize2, har2,
        hah2, hai2, hur2, hui2, hdlen2, hcplen2, hfd2, hnb2, hframe2⟩ :=
      completeStep_spec s (cd.getD 0 0)
        ((s.usedRing.getD s.usedTail default).len) cd fl hue
        (by rw [← (isDescChain_head hcd).2.1] at hcd; exact hcd)
        (hpend j (List.mem_cons_self j σ')) hfl hndsub hlen hclen hfd hnb hsz
    have hut2' : s2.usedTail = s.usedTail + 1 := by
      rw [hut2, Nat.mod_eq_of_lt (by omega)]
    -- disjointness of the freed chain from the remaining chains
    have hnd' : (cd ++ ((σ'.map (fun y => C.getD y [])).flatten ++ fl)).Nodup := by
      rwa [List.append_assoc] at hnd
    have hX := List.nodup_append.mp hnd'
    have hdisjflat : ∀ x ∈ (σ'.map (fun y => C.getD y [])).flatten, x ∉ cd :=
      fun x hx hxcd => hX.2.2 hxcd (List.mem_append_left _ hx)
    have hmemflat : ∀ j' ∈ σ', ∀ x ∈ C.getD j' [],
        x ∈ (σ'.map (fun y => C.getD y [])).flatten := by
      intro j' hj' x hx
      exact List.mem_flatten.mpr ⟨C.getD j' [],
        List.mem_map.mpr ⟨j', hj', rfl⟩, hx⟩
    have hperm : (cd ++ ((σ'.map (fun y => C.getD y [])).flatten ++ fl)).Perm
        ((σ'.map (fun y => C.getD y [])).flatten ++ (cd.reverse ++ fl)) := by
      have p1 : ((σ'.map (fun y => C.getD y [])).flatten ++
          (cd.reverse ++ fl)).Perm
          ((σ'.map (fun y => C.getD y [])).flatten ++ (cd ++ fl)) :=
        List.Perm.append_left _ (List.Perm.append_right fl (List.reverse_perm cd))
      have p2 : ((σ'.map (fun y => C.getD y [])).flatten ++ (cd ++ fl)).Perm
          (cd ++ ((σ'.map (fun y => C.getD y [])).flatten ++ fl)) := by
        rw [← List.append_assoc, ← List.append_assoc]
        exact List.Perm.append_right fl List.perm_append_comm
      exact (p1.trans p2).symm
    obtain ⟨s', fl'', hloop, hfree', hperm'', hsem', hut', hur', hsize'⟩ :=
      ih s2 (cd.reverse ++ fl)
        (fun j' hj' => hσ j' (List.mem_cons_of_mem j hj'))
        ((List.nodup_cons.mp hσnd).2)
        (by
          intro j' hj'
          have hc := hchains j' (List.mem_cons_of_mem j hj')
          obtain ⟨hne', _, _⟩ := isDescChain_head hc
          rw [hsize2]
          apply isDescChain_congr hc
          intro x hx
          exact hframe2 x (hdisjflat x (hmemflat j' hj' x hx)))
        (by
          intro j' hj'
          have hc := hchains j' (List.mem_cons_of_mem j hj')
          obtain ⟨hne', hhd', _⟩ := isDescChain_head hc
          rw [hcompne _ ?_]
          · exact hpend j' (List.mem_cons_of_mem j hj')
          · intro heq
            apply hdisjflat ((C.getD j' []).getD 0 0)
              (hmemflat j' hj' _ (getD_memD 0 (by
                cases hcc : C.getD j' [] with
                | nil => exact absurd hcc hne'
                | cons _ _ => simp)))
            rw [heq]
            exact getD_memD 0 (by
              cases hcc2 : cd with
              | nil => exact absurd hcc2 hcdne
              | cons _ _ => simp)
        )
        (by rw [hsize2]; exact hfree2)
        (hperm.nodup hnd')
        (by
          intro t ht
          rw [hur2, hut2']
          have := hentries (t + 1) (by simp; omega)
          rw [show s.usedTail + 1 + t = s.usedTail + (t + 1) from by omega]
          simpa using this)
        (by
          intro i hi
          rw [masked_congr hsize2]
          exact hmask i (by omega))
        (by
          rw [hut2', hsize2]
          simp only [List.length_cons] at htail
          omega)
        (by rw [hdlen2, hsize2])
        (by rw [hcplen2, hsize2])
        hfd2 hnb2 (by rw [hsize2]; exact hsz)
    rw [hsize2] at hfree' hsize'
    refine ⟨s', fl'', ?_, hfree', ?_, ?_, ?_, hur'.trans hur2, hsize'⟩
    · simp only [List.length_cons, completeLoop, hstep]
      exact hloop
    · refine hperm''.trans ?_
      refine (hperm.symm).trans ?_
      rw [hflat, List.append_assoc]
    · rw [hsem', hsem2, hflat]
      simp only [List.length_append]
      omega
    · rw [hut', hut2']
      simp only [List.length_cons]
      omega

/-! ## The full round trip -/

theorem chains_le_totalBuffers (chains : List (List Buffer))
    (hne : ∀ bc ∈ chains, bc ≠ []) :
    chains.length ≤ totalBuffers chains := by
  induction chains with
  | nil => simp [totalBuffers]
  | cons bc rest ih =>
    have h1 : 1 ≤ bc.length := by
      cases bc with
      | nil => exact absurd rfl (hne [] (List.mem_cons_self _ _))
      | cons _ _ => simp
    have h2 := ih (fun b hb => hne b (List.mem_cons_of_mem bc hb))
    simp only [totalBuffers, List.map_cons, List.sum_cons, List.length_cons]
    simp only [totalBuffers] at h2
    omega

theorem map_getD_range (C : List (List Nat)) :
    (List.range C.length).map (fun j => C.getD j []) = C := by
  apply List.ext_getElem
  · simp
  · intro i h1 h2
    simp [List.getD_eq_getElem?_getD, List.getElem?_eq_getElem h2]

theorem getD_map_lt {α β : Type} (f : α → β) (l : List α) (t : Nat)
    (d1 : β) (d2 : α) (h : t < l.length) :
    (l.map f).getD t d1 = f (l.getD t d2) := by
  rw [List.getD_eq_getElem?_getD, List.getD_eq_getElem?_getD,
    List.getElem?_eq_getElem (by simpa using h), List.getElem?_eq_getElem h]
  simp

theorem masked_pow_two {s : VringState} {m : Nat} (hsz : s.size = 2 ^ m)
    {i : Nat} (hi : i < s.size) : masked s i = i := by
  unfold masked
  rw [hsz, land_two_pow_sub_one, Nat.mod_eq_of_lt (by rw [← hsz]; exact hi)]

/-- The full round-trip law: on a freshly set-up vring of size `n = 2^m`,
reserving capacity for a batch of non-empty chains, publishing it through
the submit path, and reaping one used entry per chain head (in an arbitrary
completion order `σ`, with arbitrary host lengths `lens`) succeeds and
restores the free list to all `n` descriptors and the semaphore to `n`. -/
theorem roundTrip_spec (n m : Nat) (chains : List (List Buffer))
    (σ lens : List Nat)
    (hn : n = 2 ^ m) (hsz : n ≤ 65535)
    (hne : ∀ bc ∈ chains, bc ≠ [])
    (hcap : totalBuffers chains ≤ n)
    (hσ : σ.Perm (List.range chains.length)) :
    ∃ s' fl', roundTrip n chains σ lens = some s' ∧
      isFreeChain s'.descs n s'.freeDesc fl' = true ∧
      fl'.length = n ∧ (∀ i, i < n → i ∈ fl') ∧ s'.sem = n := by
  have hpos : 0 < n := by
    rw [hn]
    exact Nat.pos_pow_of_pos m (by omega)
  set k := chains.length with hkdef
  set dd := totalBuffers chains with hddef
  have hkd : k ≤ dd := chains_le_totalBuffers chains hne
  obtain ⟨hfl0, hsem0, hwf0, hsize0, hah0, hut0, hui0, haw0, hcomp0⟩ :=
    freshVring_spec n hpos hsz
  set s0 := freshVring n with hs0def
  set sW : VringState := ({ s0 with sem := s0.sem - dd } : VringState) with hsWdef
  have hfl0nd : ((List.range n).reverse : List Nat).Nodup :=
    List.nodup_reverse.mpr (List.nodup_range n)
  have hfl0len : ((List.range n).reverse : List Nat).length = n := by simp
  have hmaskW : ∀ i, i < sW.size → masked sW i = i := by
    intro i hi
    exact masked_pow_two (by rw [show sW.size = s0.size from rfl, hsize0, hn]) hi
  obtain ⟨s1, C, hfold, hClen, hCne, hCflat, hfree1, hfd1, hnb1, hsize1,
      hsem1, hur1, hui1, hut1, hah1, hdlen1, hcplen1, haw1, hframe1,
      havframe1, hchains1⟩ :=
    submitChains_fold_spec chains sW ((List.range n).reverse)
      (by show isFreeChain s0.descs s0.size s0.freeDesc _ = true
          rw [hsize0]
          exact hfl0)
      hfl0nd hne (by rw [hfl0len]; exact hcap)
      (by show s0.descs.length = s0.size; exact hwf0.descsLen)
      (by show s0.completions.length = s0.size; exact hwf0.compLen)
      (by show s0.availRing.length = s0.size; exact hwf0.availLen)
      hwf0.fdBound hwf0.nextBound
      (by show 0 < s0.size; rw [hsize0]; exact hpos)
      (by show s0.size ≤ 65535; rw [hsize0]; exact hsz)
      (by show s0.availHead + k ≤ s0.size
          rw [hsize0, hah0]
          omega)
      hmaskW
  have hsWsize : sW.size = n := by
    show s0.size = n
    exact hsize0
  rw [hsWsize] at hfree1 hsize1 hdlen1 hcplen1 haw1 hchains1
  have hsWsem : sW.sem = n - dd := by
    show s0.sem - dd = n - dd
    rw [hsem0]
  have hsWah : sW.availHead = 0 := hah0
  have hsWut : sW.usedTail = 0 := hut0
  rw [hsWah] at hah1 hchains1
  -- the state submitBatch returns, then the host writes the used ring
  set sB : VringState := ({ s1 with availIdx := s1.availHead } : VringState)
    with hsBdef
  have hbatch : submitBatch chains sW = some sB := by
    simp only [submitBatch, hfold]
  set sH : VringState := ({ sB with
    usedRing := mockUsedRing sB σ lens, usedIdx := k } : VringState) with hsHdef
  have hσlen : σ.length = k := by
    have := hσ.length_eq
    simpa using this
  have hσmem : ∀ j ∈ σ, j < k := fun j hj =>
    List.mem_range.mp (hσ.mem_iff.mp hj)
  have hσnd : σ.Nodup := hσ.symm.nodup (List.nodup_range k)
  have hcount : (65536 + sH.usedIdx % 65536 - sH.usedTail % 65536) % 65536
      = σ.length := by
    show (65536 + k % 65536 - s1.usedTail % 65536) % 65536 = σ.length
    rw [hut1, hsWut, hσlen]
    have hk65 : k < 65536 := by omega
    rw [Nat.mod_eq_of_lt hk65]
    simp
    omega
  have hcomplete : complete sH = completeLoop σ.length sH := by
    unfold complete
    rw [hcount]
  -- the σ-ordered flatten of the allocated chains is a permutation
  -- of the consumed prefix of the setup free list
  have hflatperm : ((σ.map (fun j => C.getD j [])).flatten).Perm
      (((List.range n).reverse : List Nat).take dd) := by
    have p1 : (σ.map (fun j => C.getD j [])).Perm
        ((List.range k).map (fun j => C.getD j [])) := hσ.map _
    have p2 : ((List.range k).map (fun j => C.getD j [])) = C := by
      show ((List.range chains.length).map (fun j => C.getD j [])) = C
      rw [← hClen]
      exact map_getD_range C
    have p4 : ((σ.map (fun j => C.getD j [])).flatten).Perm C.flatten := by
      have := p1.flatten
      rwa [p2] at this
    have p5 : C.flatten.Perm (((List.range n).reverse : List Nat).take dd) := by
      have := (flatten_map_reverse_perm C).symm
      rwa [hCflat] at this
    exact p4.trans p5
  have hsHut : sH.usedTail = 0 := by
    show s1.usedTail = 0
    rw [hut1, hsWut]
  have happdperm : (((σ.map (fun j => C.getD j [])).flatten)
      ++ (((List.range n).reverse : List Nat).drop dd)).Perm
      ((List.range n).reverse : List Nat) := by
    have := hflatperm.append_right
      (((List.range n).reverse : List Nat).drop dd)
    rwa [List.take_append_drop] at this
  have hflatlen : ((σ.map (fun j => C.getD j [])).flatten).length = dd := by
    rw [hflatperm.length_eq, List.length_take]
    rw [hfl0len]
    omega
  obtain ⟨s', fl', hloop, hfree', hperm', hsem', hut', hur', hsize'⟩ :=
    completeLoop_fold_spec σ C sH (((List.range n).reverse : List Nat).drop dd)
      (fun j hj => by rw [hClen]; exact hσmem j hj)
      hσnd
      (by
        intro j hj
        show isDescChain s1.descs s1.size _ _ = true
        rw [hsize1]
        exact (hchains1 j (hσmem j hj)).2.1)
      (by
        intro j hj
        show s1.completions.getD _ default = _
        exact (hchains1 j (hσmem j hj)).2.2)
      (by
        show isFreeChain s1.descs s1.size s1.freeDesc _ = true
        rw [hsize1]
        exact hfree1)
      (happdperm.symm.nodup hfl0nd)
      (by
        intro t ht
        have htk : t < k := by rw [hσlen] at ht; exact ht
        have hgdmem : σ.getD t 0 ∈ σ := getD_memD 0 ht
        have hjk' : σ.getD t 0 < k := hσmem _ hgdmem
        rw [hsHut, Nat.zero_add]
        show ((mockUsedRing sB σ lens).getD t default).id = _
        unfold mockUsedRing
        rw [getD_map_lt _ σ t default 0 ht]
        show sB.availRing.getD (σ.getD t 0) 0 = _
        have := (hchains1 (σ.getD t 0) hjk').1
        rw [Nat.zero_add] at this
        exact this)
      (by
        intro i hi
        exact masked_pow_two (by show s1.size = 2 ^ m; rw [hsize1, hn]) hi)
      (by
        rw [hsHut, hσlen, Nat.zero_add]
        show k ≤ s1.size
        rw [hsize1]
        omega)
      (by show s1.descs.length = s1.size; rw [hdlen1, hsize1])
      (by show s1.completions.length = s1.size; rw [hcplen1, hsize1])
      hfd1 hnb1
      (by show s1.size ≤ 65535; rw [hsize1]; exact hsz)
  have hrt : roundTrip n chains σ lens = complete sH := by
    show (match submitBatch chains sW with
      | none => none
      | some s1 => complete { s1 with
          usedRing := mockUsedRing s1 σ lens, usedIdx := chains.length })
      = complete sH
    rw [hbatch]
  have hP : fl'.Perm ((List.range n).reverse : List Nat) :=
    hperm'.trans happdperm
  refine ⟨s', fl', ?_, ?_, ?_, ?_, ?_⟩
  · rw [hrt, hcomplete, hloop]
  · have : sH.size = n := by show s1.size = n; exact hsize1
    rw [← this]
    exact hfree'
  · rw [hP.length_eq, hfl0len]
  · intro i hi
    apply hP.mem_iff.mpr
    rw [List.mem_reverse, List.mem_range]
    exact hi
  · rw [hsem', hflatlen]
    have hsHsem : sH.sem = n - dd := by
      show s1.sem = n - dd
      rw [hsem1, hsWsem]
    rw [hsHsem]
    omega

/-! ## Capacity accounting and TX trace lemmas -/

theorem capFold_inv (es : List CapEvent) :
    ∀ s0 s : CapState, s0.sem + s0.reserved = s0.freeLen →
    List.foldlM capStep s0 es = some s → s.sem + s.reserved = s.freeLen := by
  induction es with
  | nil =>
    intro s0 s h0 h
    simp only [List.foldlM_nil] at h
    cases h
    exact h0
  | cons e rest ih =>
    intro s0 s h0 h
    rw [List.foldlM_cons] at h
    cases hstep : capStep s0 e with
    | none =>
      rw [hstep] at h
      simp at h
    | some s1 =>
      rw [hstep] at h
      simp only [Option.bind_eq_bind, Option.some_bind] at h
      apply ih s1 s ?_ h
      cases e with
      | free =>
        simp only [capStep] at hstep
        cases hstep
        simp only []
        omega
      | reserve nr =>
        simp only [capStep] at hstep
        split at hstep
        · rename_i hguard
          cases hstep
          simp only []
          omega
        · cases hstep
      | alloc =>
        simp only [capStep] at hstep
        split at hstep
        · rename_i hguard
          cases hstep
          simp only []
          omega
        · cases hstep

theorem txFold_inv (es : List TxEvent) :
    ∀ s0 s : TxTraceState, (∀ i ∈ s0.ran, i ∈ s0.fired) →
    List.foldlM txStep s0 es = some s → ∀ i ∈ s.ran, i ∈ s.fired := by
  induction es with
  | nil =>
    intro s0 s h0 h
    simp only [List.foldlM_nil] at h
    cases h
    exact h0
  | cons e rest ih =>
    intro s0 s h0 h
    rw [List.foldlM_cons] at h
    cases hstep : txStep s0 e with
    | none =>
      rw [hstep] at h
      simp at h
    | some s1 =>
      rw [hstep] at h
      simp only [Option.bind_eq_bind, Option.some_bind] at h
      apply ih s1 s ?_ h
      cases e with
      | fireCompletion i =>
        simp only [txStep] at hstep
        split at hstep
        · cases hstep
        · cases hstep
          intro x hx
          exact List.mem_append_left _ (h0 x hx)
      | runContinuation i =>
        simp only [txStep] at hstep
        split at hstep
        · rename_i hguard
          cases hstep
          intro x hx
          rcases List.mem_append.mp hx with hx | hx
          · exact h0 x hx
          · rw [List.mem_singleton.mp hx]
            exact hguard.1
        · cases hstep

theorem take_getLastD (fl : List Nat) (k : Nat) (h1 : 1 ≤ k)
    (h2 : k ≤ fl.length) :
    (fl.take k).getLastD 0 = fl.getD (k - 1) 0 := by
  have hfltk : (fl.take k).length = k := by
    simp
    omega
  have h3 : (fl.take k).getLastD 0
      = (fl.take k).getD ((fl.take k).length - 1) 0 := by
    rw [List.getLastD_eq_getLast?, List.getLast?_eq_getElem?,
      List.getD_eq_getElem?_getD]
  rw [h3, hfltk]
  exact getD_take fl 0 (by omega) (by omega)

theorem size_t_sub_of_le {a b : Nat} (h1 : b ≤ a) (h2 : a < 2 ^ 64)
    (h3 : b ≤ 2 ^ 64) : size_t_sub a b = a - b := by
  unfold size_t_sub
  omega

/-! ## Claim theorems -/

/-- C1: for every buffer chain of `k >= 1` buffers processed by the submit
loop of `vring::run`, exactly `k` descriptors are allocated (the first `k`
pops of the free list), materialised in reverse order — buffer `i` receives
descriptor `d i = fl[k-1-i]`, so the last buffer is materialised first from
the first pop — with `descs[d i].next = d (i+1)` and `HAS_NEXT` set for
`i < k-1`, `HAS_NEXT` clear for `i = k-1`, each descriptor's
paddr/len/writeable copied from its buffer, and the head `d 0` (the first
buffer's descriptor) written into the avail ring at
`masked(_avail._head)`. -/
theorem c1_submit_reverse_chain (s : VringState) (bc : List Buffer)
    (fl : List Nat)
    (hwf : WfState s)
    (hfl : isFreeChain s.descs s.size s.freeDesc fl = true)
    (hnd : fl.Nodup)
    (hk : bc ≠ [])
    (hcap : bc.length ≤ fl.length) :
    ∃ s', submitChain bc s = some s' ∧
      (∀ i, i < bc.length →
        s'.descs.getD (fl.getD (bc.length - 1 - i) 0) default =
          { paddr := (bc.getD i default).addr
            dlen := (bc.getD i default).len
            hasNext := if i = bc.length - 1 then false else true
            writeable := (bc.getD i default).writeable
            indirect := false
            next := if i = bc.length - 1 then 0
              else fl.getD (bc.length - 1 - (i + 1)) 0 }) ∧
      s'.availRing.getD (masked s s.availHead) 0 = fl.getD (bc.length - 1) 0 ∧
      isFreeChain s'.descs s.size s'.freeDesc (fl.drop bc.length) = true := by
  obtain ⟨s', hchain, _, _, _, hheadent, _, _, hcontent, _, hfree, _, _, _⟩ :=
    submitChain_spec bc s fl hfl hnd hk hcap hwf.descsLen hwf.compLen
      hwf.availLen hwf.fdBound hwf.nextBound hwf.sizePos hwf.sizeBound
  have hk1 : 1 ≤ bc.length := by
    cases bc with
    | nil => exact absurd rfl hk
    | cons _ _ => simp
  refine ⟨s', hchain, hcontent, ?_, hfree⟩
  rw [hheadent]
  exact take_getLastD fl bc.length hk1 hcap

/-- Witness for C1 at a fresh ring of size 4 and a two-buffer chain. -/
theorem c1_submit_reverse_chain_witness :
    (submitChain [{ addr := 100, len := 10, writeable := false },
      { addr := 200, len := 20, writeable := false }] (freshVring 4)).isSome := by
  obtain ⟨s', hchain, _⟩ :=
    c1_submit_reverse_chain (freshVring 4)
      [{ addr := 100, len := 10, writeable := false },
        { addr := 200, len := 20, writeable := false }]
      [3, 2, 1, 0]
      ⟨by decide, by decide, by decide, by decide, by decide, by decide,
        by decide⟩
      (by decide) (by decide) (by decide) (by decide)
  rw [hchain]
  rfl

/-- C2: for a used-ring entry `{id, len}` consumed by one iteration of the
reap loop of `vring::complete`, the completion promise in slot `id` (pending
since submission, never fulfilled) is fulfilled exactly once with value
`len`, no other slot is touched, exactly the descriptors of the chain
reached from `id` by following `next` while `HAS_NEXT` is set are freed to
the free list (the semaphore is signalled once per freed descriptor, so it
gains the chain length), and the local used tail is incremented once. -/
theorem c2_reap_entry (s : VringState) (id len : Nat) (cd fl : List Nat)
    (hwf : WfState s)
    (hue : s.usedRing.getD (masked s s.usedTail) default
      = { id := id, len := len })
    (hcd : isDescChain s.descs s.size id cd = true)
    (hpend : s.completions.getD id default = { pending := true, fired := [] })
    (hfl : isFreeChain s.descs s.size s.freeDesc fl = true)
    (hnd : (cd ++ fl).Nodup) :
    ∃ s', completeStep s = some s' ∧
      s'.completions.getD id default = { pending := false, fired := [len] } ∧
      (∀ j, j ≠ id →
        s'.completions.getD j default = s.completions.getD j default) ∧
      isFreeChain s'.descs s.size s'.freeDesc (cd.reverse ++ fl) = true ∧
      s'.sem = s.sem + cd.length ∧
      s'.usedTail = (s.usedTail + 1) % 65536 := by
  obtain ⟨s', hstep, h1, h2, h3, h4, h5, _⟩ :=
    completeStep_spec s id len cd fl hue hcd hpend hfl hnd hwf.descsLen
      hwf.compLen hwf.fdBound hwf.nextBound hwf.sizeBound
  exact ⟨s', hstep, h1, h2, h3, h4, h5⟩

/-- Witness for C2: a ring of 4 where descriptors 0→1 form a submitted chain
(pending at head slot 0), 3→2 is the free list, and the host wrote the used
entry `{id := 0, len := 7}`. -/
theorem c2_reap_entry_witness :
    (completeStep reapWitnessState).isSome := by
  obtain ⟨s', hstep, _⟩ :=
    c2_reap_entry reapWitnessState 0 7 [0, 1] [3, 2]
      ⟨by decide, by decide, by decide, by decide, by decide, by decide,
        by decide⟩
      (by decide) (by decide) (by decide) (by decide) (by decide)
  rw [hstep]
  rfl

/-- C3 counterexample: the claim "at every suspension point the semaphore
equals the free-list length" fails on a reachable schedule.  After `setup`
of a one-descriptor ring (`free`) a producer's `available.wait(1)` is
granted (`reserve 1`, the suspension point at the submit loop's await of
the producer future, before any `allocate_desc` runs): the semaphore is 0
while the free list still holds 1 descriptor.  The semaphore is decremented
by the producer's semaphore wait, not by `allocate_desc`, which never
touches it (`src/net/virtio.cc:193-199`). -/
theorem c3_counterexample :
    ∃ s : CapState, capRun [CapEvent.free, CapEvent.reserve 1] = some s ∧
      s.sem ≠ s.freeLen := by
  refine ⟨{ sem := 0, freeLen := 1, reserved := 1 }, by decide, by decide⟩

/-- C3 (amended): at every suspension point of every schedule, the
available-descriptors semaphore equals the free-list length minus the
number of descriptors granted to producers by `semaphore::wait` but not yet
popped by `allocate_desc`; it is incremented by `free_desc` and decremented
by the producer's semaphore wait (not by `allocate_desc`).  Hence the
semaphore never exceeds the free-list length, with equality exactly when no
granted-but-unallocated capacity is outstanding. -/
theorem c3_semaphore_vs_free_list (es : List CapEvent) (s : CapState)
    (h : capRun es = some s) :
    s.sem + s.reserved = s.freeLen ∧ s.sem ≤ s.freeLen ∧
      (s.reserved = 0 → s.sem = s.freeLen) := by
  have hinv := capFold_inv es { sem := 0, freeLen := 0, reserved := 0 } s
    (by decide) h
  omega

/-- Witness for the amended C3 at a concrete schedule. -/
theorem c3_semaphore_vs_free_list_witness :
    ∃ s : CapState, capRun [CapEvent.free, CapEvent.free] = some s ∧
      s.sem + s.reserved = s.freeLen := by
  refine ⟨{ sem := 2, freeLen := 2, reserved := 0 }, by decide, ?_⟩
  exact (c3_semaphore_vs_free_list [CapEvent.free, CapEvent.free]
    { sem := 2, freeLen := 2, reserved := 0 } (by decide)).1

/-- C4: starting from a freshly set-up vring of size `n` (a power of two),
publishing `k` non-empty chains totalling `d <= n` descriptors through the
submit path (the producers having awaited capacity `d` on the semaphore)
and then reaping one used-ring entry for each of the `k` chain heads (in an
arbitrary completion order `σ`) restores the free list to containing all
`n` descriptors and the semaphore to count `n`. -/
theorem c4_roundtrip_restores (n m : Nat) (chains : List (List Buffer))
    (σ lens : List Nat)
    (hn : n = 2 ^ m) (hsz : n ≤ 65535)
    (hne : ∀ bc ∈ chains, bc ≠ [])
    (hcap : totalBuffers chains ≤ n)
    (hσ : σ.Perm (List.range chains.length)) :
    ∃ s' fl', roundTrip n chains σ lens = some s' ∧
      isFreeChain s'.descs n s'.freeDesc fl' = true ∧
      fl'.length = n ∧ (∀ i, i < n → i ∈ fl') ∧ s'.sem = n :=
  roundTrip_spec n m chains σ lens hn hsz hne hcap hσ

/-- Witness for C4: size 4, two chains (two buffers and one buffer),
completed out of order. -/
theorem c4_roundtrip_restores_witness :
    (roundTrip 4 [[{ addr := 100, len := 10, writeable := false },
        { addr := 200, len := 20, writeable := false }],
      [{ addr := 300, len := 30, writeable := false }]] [1, 0] [0, 0]).isSome := by
  obtain ⟨s', fl', h1, _⟩ :=
    c4_roundtrip_restores 4 2
      [[{ addr := 100, len := 10, writeable := false },
          { addr := 200, len := 20, writeable := false }],
        [{ addr := 300, len := 30, writeable := false }]] [1, 0] [0, 0]
      (by decide) (by decide) (by decide) (by decide) (by decide)
  rw [h1]
  rfl

/-- C5: for every packet `p` with `f` fragments popped from the TX FIFO,
`txq::transmit` awaits capacity for exactly `f + 1` descriptors on the
engine's semaphore and returns a batch of exactly one chain of `f + 1`
host-readable (`writeable = false`) buffers: the first buffer is the
zero-initialised virtio-net header of `header_len` bytes at the header's
address, and the remaining buffers are `p`'s fragments in order with `addr`
the identity-mapped fragment base. -/
theorem c5_transmit_chain (p : Packet) (vhdrAddr : Nat) :
    (transmit p vhdrAddr).2.1 = p.fragments.length + 1 ∧
    (transmit p vhdrAddr).1 =
      { needs_csum := 0, flags_reserved := 0, gso_type := 0, hdr_len := 0,
        gso_size := 0, csum_start := 0, csum_offset := 0, num_buffers := 0 } ∧
    ∃ bc, (transmit p vhdrAddr).2.2 = [bc] ∧
      bc.length = p.fragments.length + 1 ∧
      bc.getD 0 default
        = { addr := vhdrAddr, len := header_len, writeable := false } ∧
      (∀ i, i < p.fragments.length →
        bc.getD (i + 1) default =
          { addr := virt_to_phys (p.fragments.getD i default).base
            len := (p.fragments.getD i default).size
            writeable := false }) ∧
      (∀ b ∈ bc, b.writeable = false) := by
  have hbc : (transmit p vhdrAddr).2.2
      = [({ addr := vhdrAddr, len := header_len, writeable := false } : Buffer)
        :: p.fragments.map (fun f =>
          ({ addr := virt_to_phys f.base, len := f.size, writeable := false } : Buffer))] := rfl
  refine ⟨by simp [transmit], rfl, ?_⟩
  refine ⟨_, hbc, by simp, rfl, ?_, ?_⟩
  · intro i hi
    simp only [List.getD_cons_succ]
    exact getD_map_lt _ p.fragments i default default hi
  · intro b hb
    rcases List.mem_cons.mp hb with rfl | hb
    · rfl
    · obtain ⟨f, _, rfl⟩ := List.mem_map.mp hb
      rfl

/-- Witness for C5 at a concrete two-fragment packet. -/
theorem c5_transmit_chain_witness :
    (transmit { fragments := [{ base := 500, size := 60 },
      { base := 600, size := 4 }] } 900).2.1 = 3 :=
  (c5_transmit_chain
    { fragments := [{ base := 500, size := 60 }, { base := 600, size := 4 }] }
    900).1

/-- C6: in the promise/continuation runtime model, the TX packet's
destructor — the run of the continuation `txq::transmit` attaches to the
chain-head buffer's completion promise, which owns the packet — occurs in a
schedule only if the head slot's completion has already fired; as every
prefix of a valid schedule is itself a valid schedule, the destructor runs
after, and only after, the head completion fires, and never while the chain
is still owned by the host. -/
theorem c6_destructor_after_completion (es : List TxEvent) (s : TxTraceState)
    (headSlot : Nat) (hex : txExec es = some s) :
    (headSlot ∈ s.ran → headSlot ∈ s.fired) ∧
    (headSlot ∉ s.fired → headSlot ∉ s.ran) := by
  have h := txFold_inv es { fired := [], ran := [] } s
    (by intro i hi; cases hi) hex
  exact ⟨fun hr => h headSlot hr, fun hf hr => hf (h headSlot hr)⟩

/-- Witness for C6: the schedule that fires slot 2's completion and then
runs its continuation. -/
theorem c6_destructor_after_completion_witness :
    (2 : Nat) ∈ ({ fired := [2], ran := [2] } : TxTraceState).fired :=
  (c6_destructor_after_completion
    [TxEvent.fireCompletion 2, txPacketDestructor 2]
    { fired := [2], ran := [2] } 2 (by decide)).1 (by decide)

/-- C7: every chain produced by `rxq::prepare_buffers` is a single
host-writable buffer of exactly 4096 bytes; and an RX completion firing
with host-written length `len >= header_len` enqueues to the device receive
queue a packet of size `len - header_len` whose bytes are the buffer
contents starting at offset `header_len`, so `receive()` resolves with that
packet. -/
theorem c7_rx_buffers_and_delivery :
    (∀ current : Nat, ∀ alloc : Nat → Nat,
      ∀ bc ∈ prepare_buffers current alloc,
      ∃ a, bc = [{ addr := a, len := 4096, writeable := true }]) ∧
    (∀ content : List Nat, ∀ len : Nat, ∀ q : List RxPacket,
      header_len ≤ len → len < 2 ^ 64 →
      queue_rx_packet q (rx_completion content len)
        = q ++ [{ size := len - header_len, bytes := (content.drop header_len).take (len - header_len) }] ∧
      receive (queue_rx_packet [] (rx_completion content len))
        = some ({ size := len - header_len, bytes := (content.drop header_len).take (len - header_len) }, [])) := by
  constructor
  · intro current alloc bc hbc
    unfold prepare_buffers at hbc
    obtain ⟨i, _, rfl⟩ := List.mem_map.mp hbc
    exact ⟨alloc i, rfl⟩
  · intro content len q h1 h2
    have hsub : size_t_sub len header_len = len - header_len :=
      size_t_sub_of_le h1 h2 (by unfold header_len sizeof_net_hdr; omega)
    have hrx : rx_completion content len
        = { size := len - header_len,
            bytes := (content.drop header_len).take (len - header_len) } := by
      unfold rx_completion
      rw [hsub]
    rw [hrx]
    exact ⟨rfl, rfl⟩

/-- Witness for C7: a 74-byte completion with the default 10-byte header
yields a 64-byte packet. -/
theorem c7_rx_buffers_and_delivery_witness :
    receive (queue_rx_packet [] (rx_completion (List.range 74) 74))
      = some ({ size := 64, bytes := ((List.range 74).drop 10).take 64 }, []) :=
  (c7_rx_buffers_and_delivery.2 (List.range 74) 74 [] (by decide)
    (by decide)).2

/-- C8: the device constructor registers, as the vring-0 (RX)
`SET_VRING_KICK` fd, the read end of the TX queue's kick eventfd — not the
RX queue's own — because `init::init()` assigns `_rxq_kick_fd` from
`_txq_kick` (`src/net/virtio.cc:290`).  Evaluated at distinct eventfds
(TX kick read end 5, RX kick read end 7): the registered fd is 5, not 7,
contradicting the claim that each queue's own kick eventfd is
registered. -/
theorem c8_rx_kick_fd_is_tx_read_end :
    (deviceRegistrations (initFds { readFd := 1, writeFd := 2 }
      { readFd := 5, writeFd := 6 } { readFd := 3, writeFd := 4 }
      { readFd := 7, writeFd := 8 })).kick0.fd
        = ({ readFd := 5, writeFd := 6 } : Eventfd).readFd ∧
    (deviceRegistrations (initFds { readFd := 1, writeFd := 2 }
      { readFd := 5, writeFd := 6 } { readFd := 3, writeFd := 4 }
      { readFd := 7, writeFd := 8 })).kick0.fd
        ≠ ({ readFd := 7, writeFd := 8 } : Eventfd).readFd := by
  constructor
  · rfl
  · decide

/-- C9: `vring::complete` performs no guarded (assert-like) recovery: a
used-ring entry naming a descriptor outside the ring (`id = 7` in a ring of
4) aborts the execution (the model's `none`, covering the unchecked
`_completions[ue._id]` access), and under the precondition that every used
entry names a host-owned chain head (as in the round-trip scenario, where
the host completes exactly the published heads), no out-of-bounds or stale
completion-slot access is reachable: `complete` runs to completion. -/
theorem c9_complete_safety :
    complete malformedUsedState = none ∧
    (∀ n m : Nat, ∀ chains : List (List Buffer), ∀ σ lens : List Nat,
      n = 2 ^ m → n ≤ 65535 → (∀ bc ∈ chains, bc ≠ []) →
      totalBuffers chains ≤ n → σ.Perm (List.range chains.length) →
      (roundTrip n chains σ lens).isSome) := by
  constructor
  · decide
  · intro n m chains σ lens hn hsz hne hcap hσ
    obtain ⟨s', fl', h1, _⟩ :=
      roundTrip_spec n m chains σ lens hn hsz hne hcap hσ
    rw [h1]
    rfl

/-- Witness for C9's precondition clause at a one-chain scenario. -/
theorem c9_complete_safety_witness :
    (roundTrip 2 [[{ addr := 42, len := 5, writeable := true }]]
      [0] [11]).isSome :=
  c9_complete_safety.2 2 1 [[{ addr := 42, len := 5, writeable := true }]]
    [0] [11] (by decide) (by decide) (by decide) (by decide) (by decide)

/-- C10: the RX completion handler computes the delivered packet's fragment
size as `len - _header_len` in `size_t` arithmetic with no guard that
`len >= _header_len`: for every host-reported `len` below the 10-byte
default header, the subtraction wraps modulo 2^64 to
`2^64 - (header_len - len)` and a packet of that wrapped size is enqueued
to the device receive queue regardless. -/
theorem c10_rx_length_underflow (content : List Nat) (len : Nat)
    (q : List RxPacket) (h : len < header_len) :
    (rx_completion content len).size = 2 ^ 64 - (header_len - len) ∧
    queue_rx_packet q (rx_completion content len)
      = q ++ [rx_completion content len] := by
  constructor
  · show size_t_sub len header_len = 2 ^ 64 - (header_len - len)
    unfold size_t_sub header_len sizeof_net_hdr at *
    omega
  · rfl

/-- Witness for C10 at `len = 0`: the enqueued packet's size is
`2^64 - 10`. -/
theorem c10_rx_length_underflow_witness :
    (rx_completion [] 0).size = 2 ^ 64 - 10 :=
  (c10_rx_length_underflow [] 0 [] (by decide)).1

end VirtioNet

